import Mathlib

/-!
Verification of the exam-platform application (GAPI_Exam_Paper_251225.py).

This file gives a shallow embedding of the program's pure logic:

* the exam token codec: compress_and_encode and decode_and_decompress,
  together with Lean models of the library layers they compose
  (json.dumps and json.loads over Python code-point strings, UTF-8,
  a zlib stream built from stored DEFLATE blocks with the real header
  and Adler-32 checks, and base64 in both the standard and the URL-safe
  alphabet),
* the page-range chunking of split_and_upload_pdf,
* the bounded polling loop of upload_to_gemini,
* the MCQ scoring of student_view,
* the MCQ edit pass of teacher_dashboard,
* the role selection of main,
* add_more_questions.

External effects (Streamlit widgets, the Gemini SDK, the file system)
are modelled as explicit inputs: a widget becomes a parameter holding the
value the user chose, the AI call becomes an Option-valued oracle whose
none case stands for a raised exception.  Python exceptions caught by a
try/except are modelled by Option results.  Machine-level details the
claims do not touch (real Huffman-compressed DEFLATE block types 1 and 2,
float JSON numbers, base64 decoding of strings that contain characters
outside the alphabet) are out of the model and noted at the definition
they would refine.
-/

namespace ExamApp

/-! ## JSON values

A Python value that json.dumps serializes.  Strings are sequences of
Unicode code points (List Nat), exactly as in CPython, where a str may
also hold lone surrogates; numbers are unbounded integers, as Python
ints are (float values are outside the model); objects are insertion
ordered key/value lists, as Python dicts are. -/

inductive Json where
  | null
  | bool (b : Bool)
  | num (n : Int)
  | str (s : List Nat)
  | arr (items : List Json)
  | obj (fields : List (List Nat × Json))

/-- Code points of a Lean string literal, for writing concrete values. -/
def pts (s : String) : List Nat := s.data.map Char.toNat

/-! ## json.dumps

Model of Python json.dumps with its defaults: separator ", " between
items, ": " after keys, ensure_ascii=True so every code point outside
printable ASCII is written as a \uXXXX escape (a pair of surrogate
escapes for points above U+FFFF), and the named escapes of the
encoder's escape table.  Output is pure ASCII. -/

/-- Decimal digit character for d < 10. -/
def digitChar (d : Nat) : Char := Char.ofNat (48 + d)

/-- Decimal digits of n, most significant first.  Structural on a fuel
argument; fuel n + 1 always suffices because n / 10 < n for n ≥ 10. -/
def natCharsAux : Nat → Nat → List Char
  | 0, _ => []
  | fuel + 1, n =>
    if n < 10 then [digitChar n] else natCharsAux fuel (n / 10) ++ [digitChar (n % 10)]

def natChars (n : Nat) : List Char := natCharsAux (n + 1) n

/-- Characters of a Python int: a minus sign then digits for negatives. -/
def intChars (i : Int) : List Char :=
  if i < 0 then '-' :: natChars i.natAbs else natChars i.natAbs

/-- Lowercase hexadecimal digit character for d < 16. -/
def hexDigitChar (d : Nat) : Char :=
  if d < 10 then Char.ofNat (48 + d) else Char.ofNat (87 + d)

/-- Four lowercase hex digits of n < 65536, as json.dumps writes \uXXXX. -/
def hex4Chars (n : Nat) : List Char :=
  [hexDigitChar (n / 4096 % 16), hexDigitChar (n / 256 % 16), hexDigitChar (n / 16 % 16),
   hexDigitChar (n % 16)]

/-- The characters json.dumps emits for one code point of a string, with
ensure_ascii: the named escapes of its escape table, printable ASCII
verbatim, \uXXXX for every other point up to U+FFFF (lone surrogates
included, as CPython writes them), and a surrogate-pair escape for
points above U+FFFF. -/
def escapePoint (p : Nat) : List Char :=
  if p = 34 then ['\\', '"']
  else if p = 92 then ['\\', '\\']
  else if p = 8 then ['\\', 'b']
  else if p = 9 then ['\\', 't']
  else if p = 10 then ['\\', 'n']
  else if p = 12 then ['\\', 'f']
  else if p = 13 then ['\\', 'r']
  else if 32 ≤ p ∧ p ≤ 126 then [Char.ofNat p]
  else if p ≤ 65535 then '\\' :: 'u' :: hex4Chars p
  else ('\\' :: 'u' :: hex4Chars (55296 + (p - 65536) / 1024))
    ++ ('\\' :: 'u' :: hex4Chars (56320 + (p - 65536) % 1024))

def escapeStr (s : List Nat) : List Char := (s.map escapePoint).flatten

/-- A JSON string literal: quote, escaped body, quote. -/
def strChars (s : List Nat) : List Char := '"' :: (escapeStr s ++ ['"'])

/-- The keyword texts json.dumps writes for the constant values. -/
def keywordNull : List Char := ['n', 'u', 'l', 'l']

def keywordTrue : List Char := ['t', 'r', 'u', 'e']

def keywordFalse : List Char := ['f', 'a', 'l', 's', 'e']

mutual
/-- json.dumps, producing the character list of the JSON text. -/
def dumps : Json → List Char
  | .null => keywordNull
  | .bool true => keywordTrue
  | .bool false => keywordFalse
  | .num n => intChars n
  | .str s => strChars s
  | .arr [] => ['[', ']']
  | .arr (x :: xs) => '[' :: (dumps x ++ dumpsArrRest xs)
  | .obj [] => ['\x7b', '\x7d']
  | .obj ((k, v) :: kvs) =>
    '\x7b' :: (strChars k ++ ':' :: ' ' :: (dumps v ++ dumpsObjRest kvs))
/-- Remaining array items, each preceded by the ", " separator. -/
def dumpsArrRest : List Json → List Char
  | [] => [']']
  | x :: xs => ',' :: ' ' :: (dumps x ++ dumpsArrRest xs)
/-- Remaining object members, each preceded by ", ", keys followed by ": ". -/
def dumpsObjRest : List (List Nat × Json) → List Char
  | [] => ['\x7d']
  | (k, v) :: kvs => ',' :: ' ' :: (strChars k ++ ':' :: ' ' :: (dumps v ++ dumpsObjRest kvs))
end

/-! ## Which values are Python values

serializable: every string (and key) is a sequence of Python code
points (at most U+10FFFF; lone surrogates allowed, as Python str allows
them), and the keys of every object are distinct, as dict keys are.
surrSafe: no string holds a high surrogate immediately followed by a
low surrogate — such a pair is written by dumps as the same six-plus-six
character escape as one astral code point, which loads merges back into
the single astral point, so exactly these values fail to round-trip. -/

def validPoints (s : List Nat) : Bool := s.all fun p => decide (p ≤ 1114111)

/-- No high surrogate immediately followed by a low surrogate. -/
def noSurrPair : List Nat → Bool
  | a :: b :: rest =>
    if 55296 ≤ a ∧ a ≤ 56319 ∧ 56320 ≤ b ∧ b ≤ 57343 then false else noSurrPair (b :: rest)
  | _ => true

/-- Distinct object keys, as the keys of a Python dict are. -/
def distinctKeys : List (List Nat) → Bool
  | [] => true
  | k :: ks => if k ∈ ks then false else distinctKeys ks

mutual
def serializable : Json → Bool
  | .null => true
  | .bool _ => true
  | .num _ => true
  | .str s => validPoints s
  | .arr items => serializableItems items
  | .obj fields => distinctKeys (fields.map Prod.fst) && serializableFields fields
def serializableItems : List Json → Bool
  | [] => true
  | x :: xs => serializable x && serializableItems xs
def serializableFields : List (List Nat × Json) → Bool
  | [] => true
  | (k, v) :: kvs => validPoints k && serializable v && serializableFields kvs
end

mutual
def surrSafe : Json → Bool
  | .null => true
  | .bool _ => true
  | .num _ => true
  | .str s => noSurrPair s
  | .arr items => surrSafeItems items
  | .obj fields => surrSafeFields fields
def surrSafeItems : List Json → Bool
  | [] => true
  | x :: xs => surrSafe x && surrSafeItems xs
def surrSafeFields : List (List Nat × Json) → Bool
  | [] => true
  | (k, v) :: kvs => noSurrPair k && surrSafe v && surrSafeFields kvs
end

/-! ## json.loads

Model of Python json.loads (strict mode): whitespace skipped around
tokens, string escapes decoded with CPython's surrogate-pair merging
and its rejection of control characters and invalid \uXXXX escapes,
numbers per the strict JSON integer grammar (no leading zeros),
objects built by dict insertion (position of the first occurrence of a
key, value of the last).  Float literals are outside the model: where
CPython parses a fraction or exponent, this parser stops at the '.' or
'e' and the surrounding context then rejects, so float-bearing
documents decode to none here.  The parser is structural on an explicit
fuel; two fuel steps always consume at least one character, so the
budget given by json_loads never binds. -/

def isWsChar (c : Char) : Bool := c = ' ' || c = '\t' || c = '\n' || c = '\r'

def skipWs : List Char → List Char
  | c :: cs => if isWsChar c then skipWs cs else c :: cs
  | [] => []

def isDigitChar (c : Char) : Bool := decide (48 ≤ c.toNat) && decide (c.toNat ≤ 57)

def takeDigits : List Char → List Char × List Char
  | c :: cs =>
    if isDigitChar c then
      let p := takeDigits cs
      (c :: p.1, p.2)
    else ([], c :: cs)
  | [] => ([], [])

def digitsVal (ds : List Char) : Nat := ds.foldl (fun a c => a * 10 + (c.toNat - 48)) 0

/-- A remainder that cannot extend a decimal digit run: empty or headed
by a non-digit. -/
def numBoundary : List Char → Bool
  | [] => true
  | c :: _ => !isDigitChar c

/-- The integer part: a single 0, or a nonzero digit followed by any
digits (the strict JSON grammar CPython's NUMBER_RE implements). -/
def parseIntPart : List Char → Option (Nat × List Char)
  | c :: cs =>
    if c = '0' then some (0, cs)
    else if isDigitChar c then
      let p := takeDigits cs
      some (digitsVal (c :: p.1), p.2)
    else none
  | [] => none

def parseNumber : List Char → Option (Int × List Char)
  | [] => none
  | c :: cs =>
    if c = '-' then
      match parseIntPart cs with
      | some (n, r) => some (-(n : Int), r)
      | none => none
    else
      match parseIntPart (c :: cs) with
      | some (n, r) => some ((n : Int), r)
      | none => none

def hexVal (c : Char) : Option Nat :=
  if 48 ≤ c.toNat ∧ c.toNat ≤ 57 then some (c.toNat - 48)
  else if 97 ≤ c.toNat ∧ c.toNat ≤ 102 then some (c.toNat - 87)
  else if 65 ≤ c.toNat ∧ c.toNat ≤ 70 then some (c.toNat - 55)
  else none

def hex4Val (a b c d : Char) : Option Nat :=
  match hexVal a, hexVal b, hexVal c, hexVal d with
  | some va, some vb, some vc, some vd => some (((va * 16 + vb) * 16 + vc) * 16 + vd)
  | _, _, _, _ => none

/-- The named escapes CPython's scanner accepts after a backslash. -/
def simpleEscape (e : Char) : Option Nat :=
  if e = '"' then some 34
  else if e = '\\' then some 92
  else if e = '/' then some 47
  else if e = 'b' then some 8
  else if e = 'f' then some 12
  else if e = 'n' then some 10
  else if e = 'r' then some 13
  else if e = 't' then some 9
  else none

/-- The body of a string literal after the opening quote, producing the
code points up to the closing quote, exactly as CPython's scanstring:
literal characters below U+0020 are rejected (strict mode), \uXXXX
escapes decode to their point, and a high-surrogate escape immediately
followed by a low-surrogate escape merges into one astral point (an
ill-formed \uXXXX in that lookahead position is an error, a well-formed
one that is no low surrogate is left for the next iteration). -/
def parseStrBody : Nat → List Char → Option (List Nat × List Char)
  | 0, _ => none
  | _, [] => none
  | fuel + 1, c :: cs =>
    if c = '"' then some ([], cs)
    else if c = '\\' then
      match cs with
      | [] => none
      | e :: cs2 =>
        if e = 'u' then
          match cs2 with
          | a :: b :: c3 :: d :: cs3 =>
            match hex4Val a b c3 d with
            | none => none
            | some h =>
              if 55296 ≤ h ∧ h ≤ 56319 then
                match cs3 with
                | '\\' :: 'u' :: a2 :: b2 :: c2 :: d2 :: cs4 =>
                  match hex4Val a2 b2 c2 d2 with
                  | some l =>
                    if 56320 ≤ l ∧ l ≤ 57343 then
                      match parseStrBody fuel cs4 with
                      | some (ps, r) => some ((65536 + (h - 55296) * 1024 + (l - 56320)) :: ps, r)
                      | none => none
                    else
                      match parseStrBody fuel cs3 with
                      | some (ps, r) => some (h :: ps, r)
                      | none => none
                  | none => none
                | _ =>
                  match parseStrBody fuel cs3 with
                  | some (ps, r) => some (h :: ps, r)
                  | none => none
              else
                match parseStrBody fuel cs3 with
                | some (ps, r) => some (h :: ps, r)
                | none => none
          | _ => none
        else
          match simpleEscape e with
          | some p =>
            match parseStrBody fuel cs2 with
            | some (ps, r) => some (p :: ps, r)
            | none => none
          | none => none
    else if c.toNat < 32 then none
    else
      match parseStrBody fuel cs with
      | some (ps, r) => some (c.toNat :: ps, r)
      | none => none

/-- Insert a key into the growing dict: the position of a key's first
occurrence is kept, its value replaced — Python dict assignment. -/
def upsert (acc : List (List Nat × Json)) (k : List Nat) (v : Json) :
    List (List Nat × Json) :=
  match acc with
  | [] => [(k, v)]
  | (k0, v0) :: rest => if k0 = k then (k0, v) :: rest else (k0, v0) :: upsert rest k v

/-- The dict built from the parsed member list, in parse order. -/
def dictOfPairs (ps : List (List Nat × Json)) : List (List Nat × Json) :=
  ps.foldl (fun acc kv => upsert acc kv.1 kv.2) []

mutual
/-- One JSON value, as CPython's scanner dispatches on the first
character after whitespace. -/
def parseVal : Nat → List Char → Option (Json × List Char)
  | 0, _ => none
  | fuel + 1, cs =>
    match skipWs cs with
    | 'n' :: 'u' :: 'l' :: 'l' :: r => some (.null, r)
    | 't' :: 'r' :: 'u' :: 'e' :: r => some (.bool true, r)
    | 'f' :: 'a' :: 'l' :: 's' :: 'e' :: r => some (.bool false, r)
    | '"' :: r =>
      match parseStrBody (r.length + 1) r with
      | some (s, r2) => some (.str s, r2)
      | none => none
    | '[' :: r =>
      (match skipWs r with
       | ']' :: r2 => some (.arr [], r2)
       | r2 =>
         match parseItems fuel r2 with
         | some (items, r3) => some (.arr items, r3)
         | none => none)
    | '\x7b' :: r =>
      (match skipWs r with
       | '\x7d' :: r2 => some (.obj [], r2)
       | r2 =>
         match parseMembers fuel r2 with
         | some (ms, r3) => some (.obj (dictOfPairs ms), r3)
         | none => none)
    | c :: r =>
      if c = '-' ∨ isDigitChar c then
        match parseNumber (c :: r) with
        | some (n, r2) => some (.num n, r2)
        | none => none
      else none
    | [] => none
/-- One or more comma-separated array items up to the closing bracket. -/
def parseItems : Nat → List Char → Option (List Json × List Char)
  | 0, _ => none
  | fuel + 1, cs =>
    match parseVal fuel cs with
    | none => none
    | some (v, r) =>
      match skipWs r with
      | ']' :: r2 => some ([v], r2)
      | ',' :: r2 =>
        (match parseItems fuel (skipWs r2) with
         | some (vs, r3) => some (v :: vs, r3)
         | none => none)
      | _ => none
/-- One or more comma-separated members up to the closing brace. -/
def parseMembers : Nat → List Char → Option (List (List Nat × Json) × List Char)
  | 0, _ => none
  | fuel + 1, cs =>
    match skipWs cs with
    | '"' :: r =>
      (match parseStrBody (r.length + 1) r with
       | none => none
       | some (k, r1) =>
         match skipWs r1 with
         | ':' :: r2 =>
           (match parseVal fuel r2 with
            | none => none
            | some (v, r3) =>
              match skipWs r3 with
              | '\x7d' :: r4 => some ([(k, v)], r4)
              | ',' :: r4 =>
                (match parseMembers fuel r4 with
                 | some (ms, r5) => some ((k, v) :: ms, r5)
                 | none => none)
              | _ => none)
         | _ => none)
    | _ => none
end

/-- json.loads: parse one value, then nothing but whitespace may
remain.  The fuel 2 s.length + 2 never binds: every two fuel steps
consume at least one character. -/
def json_loads (s : List Char) : Option Json :=
  match parseVal (2 * s.length + 2) s with
  | some (v, r) => if (skipWs r).isEmpty then some v else none
  | none => none

/-! ## UTF-8

str.encode('utf-8') and bytes.decode('utf-8').  The encoder is total on
Lean characters (every Char is a Unicode scalar value; the dumps output
it is applied to is pure ASCII anyway).  The decoder enforces what
CPython's UTF-8 codec enforces: continuation bytes in 80..BF, no
overlong forms, no surrogates, nothing above U+10FFFF. -/

def utf8EncodeChar (c : Char) : List Nat :=
  let n := c.toNat
  if n < 128 then [n]
  else if n < 2048 then [192 + n / 64, 128 + n % 64]
  else if n < 65536 then [224 + n / 4096, 128 + n / 64 % 64, 128 + n % 64]
  else [240 + n / 262144, 128 + n / 4096 % 64, 128 + n / 64 % 64, 128 + n % 64]

def utf8Encode (s : List Char) : List Nat := (s.map utf8EncodeChar).flatten

/-- Structural on fuel; one fuel step decodes one character from at
least one byte, so fuel = length + 1 always suffices. -/
def utf8DecodeAux : Nat → List Nat → Option (List Char)
  | 0, _ => none
  | _ + 1, [] => some []
  | fuel + 1, b :: bs =>
    if b < 128 then
      match utf8DecodeAux fuel bs with
      | some cs => some (Char.ofNat b :: cs)
      | none => none
    else if b < 194 then none
    else if b < 224 then
      match bs with
      | b2 :: bs2 =>
        if 128 ≤ b2 ∧ b2 < 192 then
          match utf8DecodeAux fuel bs2 with
          | some cs => some (Char.ofNat ((b - 192) * 64 + (b2 - 128)) :: cs)
          | none => none
        else none
      | [] => none
    else if b < 240 then
      match bs with
      | b2 :: b3 :: bs3 =>
        if (128 ≤ b2 ∧ b2 < 192) ∧ (128 ≤ b3 ∧ b3 < 192) then
          let n := (b - 224) * 4096 + (b2 - 128) * 64 + (b3 - 128)
          if 2048 ≤ n ∧ ¬(55296 ≤ n ∧ n ≤ 57343) then
            match utf8DecodeAux fuel bs3 with
            | some cs => some (Char.ofNat n :: cs)
            | none => none
          else none
        else none
      | _ => none
    else if b < 245 then
      match bs with
      | b2 :: b3 :: b4 :: bs4 =>
        if (128 ≤ b2 ∧ b2 < 192) ∧ (128 ≤ b3 ∧ b3 < 192) ∧ (128 ≤ b4 ∧ b4 < 192) then
          let n := (b - 240) * 262144 + (b2 - 128) * 4096 + (b3 - 128) * 64 + (b4 - 128)
          if 65536 ≤ n ∧ n ≤ 1114111 then
            match utf8DecodeAux fuel bs4 with
            | some cs => some (Char.ofNat n :: cs)
            | none => none
          else none
        else none
      | _ => none
    else none

def utf8Decode (bs : List Nat) : Option (List Char) := utf8DecodeAux (bs.length + 1) bs

/-! ## zlib

zlib.compress and zlib.decompress.  The stream format is the real one:
a two-byte header (compression method 8 in the low nibble of CMF, a
window size of at most 32 KiB in the high nibble, the FLG byte making
CMF*256+FLG divisible by 31, no preset dictionary), DEFLATE blocks,
and a big-endian Adler-32 of the payload.  The model's compressor emits
stored (BTYPE = 0, uncompressed) DEFLATE blocks — a choice every
conforming inflater accepts — under the same 0x78 0x9C header bytes
CPython's default level emits, and the model's inflater handles exactly
those stored blocks: the Huffman block types 1 and 2 that real zlib
also inflates are outside the model.  zlib.decompress ignores unused
trailing bytes after the complete stream, and so does the model. -/

/-- Adler-32: two mod-65521 running sums, low then high. -/
def adler32 (data : List Nat) : Nat :=
  let sums := data.foldl
    (fun (ab : Nat × Nat) b =>
      let a := (ab.1 + b) % 65521
      (a, (ab.2 + a) % 65521))
    (1, 0)
  sums.2 * 65536 + sums.1

/-- Big-endian 32-bit bytes. -/
def be32 (n : Nat) : List Nat :=
  [n / 16777216 % 256, n / 65536 % 256, n / 256 % 256, n % 256]

/-- Little-endian 16-bit bytes, as stored-block LEN/NLEN are written. -/
def le16 (n : Nat) : List Nat := [n % 256, n / 256 % 256]

/-- Stored DEFLATE blocks: block-header byte (BFINAL in bit 0, BTYPE 0),
LEN, NLEN = its ones-complement, then LEN raw bytes; at most 65535
bytes per block, the last block flagged final.  Structural on fuel;
fuel = length + 1 suffices since every recursion drops 65535 bytes. -/
def deflateStored : Nat → List Nat → List Nat
  | 0, _ => []
  | fuel + 1, data =>
    if data.length ≤ 65535 then
      1 :: (le16 data.length ++ le16 (65535 - data.length) ++ data)
    else
      0 :: (le16 65535 ++ le16 0 ++ data.take 65535) ++ deflateStored fuel (data.drop 65535)

/-- zlib.compress: header 0x78 0x9C, deflate, Adler-32 trailer. -/
def zlib_compress (data : List Nat) : List Nat :=
  120 :: 156 :: (deflateStored (data.length + 1) data ++ be32 (adler32 data))

/-- Inflate a sequence of stored blocks, returning the payload and the
bytes after the final block.  NLEN is verified against LEN, as inflate
verifies it. -/
def inflateStored : Nat → List Nat → Option (List Nat × List Nat)
  | 0, _ => none
  | fuel + 1, bs =>
    match bs with
    | [] => none
    | bhead :: rest =>
      if bhead / 2 % 4 = 0 then
        match rest with
        | l1 :: l2 :: n1 :: n2 :: rest2 =>
          let len := l1 + 256 * l2
          if n1 + 256 * n2 = 65535 - len ∧ len ≤ rest2.length then
            if bhead % 2 = 1 then some (rest2.take len, rest2.drop len)
            else
              match inflateStored fuel (rest2.drop len) with
              | some (more, rest3) => some (rest2.take len ++ more, rest3)
              | none => none
          else none
        | _ => none
      else none

/-- zlib.decompress: validate the header exactly as zlib does, inflate,
verify the Adler-32 trailer, ignore anything after it. -/
def zlib_decompress (bs : List Nat) : Option (List Nat) :=
  match bs with
  | cmf :: flg :: rest =>
    if cmf % 16 = 8 ∧ cmf / 16 ≤ 7 ∧ (cmf * 256 + flg) % 31 = 0 ∧ flg / 32 % 2 = 0 then
      match inflateStored (rest.length + 1) rest with
      | some (data, trailer) =>
        (match trailer with
         | a1 :: a2 :: a3 :: a4 :: _ =>
           if [a1, a2, a3, a4] = be32 (adler32 data) then some data else none
         | _ => none)
      | none => none
    else none
  | _ => none

/-! ## base64

base64.urlsafe_b64encode, base64.urlsafe_b64decode and base64.b64decode.
Encoding turns each 3-byte group into 4 alphabet characters, padding
the tail with '='.  Python's urlsafe decoder translates '-' to '+' and
'_' to '/' and then decodes with the standard alphabet, so it accepts
both alphabets; the model does the same.  The model's decoder is strict
on the alphabet, where b64decode's default validate=False first
discards characters outside the alphabet; on pure-alphabet input — all
input the claims touch — the two agree, and both reject input whose
length is not a multiple of four. -/

def b64CharStd (v : Nat) : Char :=
  if v < 26 then Char.ofNat (65 + v)
  else if v < 52 then Char.ofNat (97 + (v - 26))
  else if v < 62 then Char.ofNat (48 + (v - 52))
  else if v = 62 then '+' else '/'

def b64CharUrl (v : Nat) : Char :=
  if v < 26 then Char.ofNat (65 + v)
  else if v < 52 then Char.ofNat (97 + (v - 26))
  else if v < 62 then Char.ofNat (48 + (v - 52))
  else if v = 62 then '-' else '_'

def b64EncodeWith (alpha : Nat → Char) : List Nat → List Char
  | b1 :: b2 :: b3 :: rest =>
    alpha (b1 / 4) :: alpha (b1 % 4 * 16 + b2 / 16) :: alpha (b2 % 16 * 4 + b3 / 64)
      :: alpha (b3 % 64) :: b64EncodeWith alpha rest
  | [b1, b2] => [alpha (b1 / 4), alpha (b1 % 4 * 16 + b2 / 16), alpha (b2 % 16 * 4), '=']
  | [b1] => [alpha (b1 / 4), alpha (b1 % 4 * 16), '=', '=']
  | [] => []

def urlsafe_b64encode (bs : List Nat) : List Char := b64EncodeWith b64CharUrl bs

/-- The standard-alphabet encoder, the output format of the legacy
uncompressed tokens the spec describes. -/
def b64encodeStd (bs : List Nat) : List Char := b64EncodeWith b64CharStd bs

/-- Value of one standard-alphabet character. -/
def b64ValStd (c : Char) : Option Nat :=
  if 65 ≤ c.toNat ∧ c.toNat ≤ 90 then some (c.toNat - 65)
  else if 97 ≤ c.toNat ∧ c.toNat ≤ 122 then some (c.toNat - 97 + 26)
  else if 48 ≤ c.toNat ∧ c.toNat ≤ 57 then some (c.toNat - 48 + 52)
  else if c.toNat = 43 then some 62
  else if c.toNat = 47 then some 63
  else none

def b64DecodeGroups : List Char → Option (List Nat)
  | [] => some []
  | c1 :: c2 :: c3 :: c4 :: rest =>
    (match b64ValStd c1, b64ValStd c2 with
     | some v1, some v2 =>
       if c3 = '=' then
         (if c4 = '=' ∧ rest = [] then some [v1 * 4 + v2 / 16] else none)
       else
         (match b64ValStd c3 with
          | some v3 =>
            if c4 = '=' then
              (if rest = [] then some [v1 * 4 + v2 / 16, v2 % 16 * 16 + v3 / 4] else none)
            else
              (match b64ValStd c4 with
               | some v4 =>
                 (match b64DecodeGroups rest with
                  | some bs =>
                    some ((v1 * 4 + v2 / 16) :: (v2 % 16 * 16 + v3 / 4) :: (v3 % 4 * 64 + v4) :: bs)
                  | none => none)
               | none => none)
          | none => none)
     | _, _ => none)
  | _ => none

def b64decode (s : List Char) : Option (List Nat) := b64DecodeGroups s

/-- The character translation of urlsafe_b64decode. -/
def urlTranslate (c : Char) : Char :=
  if c = '-' then '+' else if c = '_' then '/' else c

def urlsafe_b64decode (s : List Char) : Option (List Nat) :=
  b64decode (s.map urlTranslate)

/-! ## The token codec of the source (lines 33-55) -/

/-- compress_and_encode (lines 33-40): json.dumps, encode to UTF-8,
zlib.compress, base64.urlsafe_b64encode, decoded back to a str. -/
def compress_and_encode (json_data : Json) : String :=
  String.mk (urlsafe_b64encode (zlib_compress (utf8Encode (dumps json_data))))

/-- The first branch of decode_and_decompress (lines 45-48):
urlsafe_b64decode, zlib.decompress, decode from UTF-8, json.loads; each
stage's exception propagates as none. -/
def compressedDecodePath (encoded_str : String) : Option Json :=
  match urlsafe_b64decode encoded_str.data with
  | none => none
  | some decoded =>
    match zlib_decompress decoded with
    | none => none
    | some decompressed =>
      match utf8Decode decompressed with
      | none => none
      | some chars => json_loads chars

/-- The fallback branch (lines 51-55): plain b64decode, decode from
UTF-8, json.loads. -/
def legacyDecodePath (encoded_str : String) : Option Json :=
  match b64decode encoded_str.data with
  | none => none
  | some decoded =>
    match utf8Decode decoded with
    | none => none
    | some chars => json_loads chars

/-- decode_and_decompress (lines 42-55): try the compressed path, fall
back to the legacy path, return None when both raise. -/
def decode_and_decompress (encoded_str : String) : Option Json :=
  match compressedDecodePath encoded_str with
  | some j => some j
  | none =>
    match legacyDecodePath encoded_str with
    | some j => some j
    | none => none

/-- The older uncompressed encoding the spec describes for legacy
tokens: plain standard base64 of the UTF-8 JSON text. -/
def legacy_encode (json_data : Json) : String :=
  String.mk (b64encodeStd (utf8Encode (dumps json_data)))

/-- Whether a decoded value is an object carrying the three keys
student_view renders (exam_data is read at mcqs, short, long). -/
def hasExamKeys (j : Json) : Bool :=
  match j with
  | .obj fields =>
    (pts "mcqs") ∈ fields.map Prod.fst ∧ (pts "short") ∈ fields.map Prod.fst
      ∧ (pts "long") ∈ fields.map Prod.fst
  | _ => false

/-! ## Concrete exams for the codec witnesses and counterexamples -/

/-- A small one-question exam object. -/
def exam0Fields : List (List Nat × Json) :=
  [(pts "mcqs", Json.arr [Json.obj
      [(pts "question", Json.str (pts "1+1?")),
       (pts "options", Json.arr [Json.str (pts "2"), Json.str (pts "3")]),
       (pts "correct", Json.str (pts "2")),
       (pts "marks", Json.num 1)]]),
   (pts "short", Json.arr []),
   (pts "long", Json.arr [])]

def exam0 : Json := Json.obj exam0Fields

/-- An exam whose question text is the two adjacent code points high
surrogate U+D800 and low surrogate U+DC00.  A Python str holds this
pair, json.dumps writes it, so the value is JSON-serializable. -/
def surrogateExam : Json :=
  Json.obj
    [(pts "mcqs", Json.arr [Json.obj
        [(pts "question", Json.str [55296, 56320]), (pts "marks", Json.num 1)]]),
     (pts "short", Json.arr []),
     (pts "long", Json.arr [])]

/-- What the codec gives back for surrogateExam: json.loads merges the
two surrogate escapes into the single astral point U+10000. -/
def mergedExam : Json :=
  Json.obj
    [(pts "mcqs", Json.arr [Json.obj
        [(pts "question", Json.str [65536]), (pts "marks", Json.num 1)]]),
     (pts "short", Json.arr []),
     (pts "long", Json.arr [])]

/-- The question string of the first MCQ, a discriminator separating
surrogateExam from mergedExam. -/
def firstQuestionPoints (j : Json) : List Nat :=
  match j with
  | .obj ((_, Json.arr (Json.obj ((_, Json.str s) :: _) :: _)) :: _) => s
  | _ => []

/-- The URL-safe token character set the spec names: the URL-safe
base64 alphabet A-Z, a-z, 0-9, '-', '_' plus the '=' padding. -/
def urlSafeChar (c : Char) : Bool :=
  (65 ≤ c.toNat && c.toNat ≤ 90) || (97 ≤ c.toNat && c.toNat ≤ 122)
    || (48 ≤ c.toNat && c.toNat ≤ 57) || c.toNat = 45 || c.toNat = 95 || c.toNat = 61

/-! ## add_more_questions (claim C10)

The source calls the AI model, parses its response with json.loads and
appends the parsed question to the list selected by q_type; the whole
body sits in a try/except that returns the exam unchanged on any
exception.  The AI call plus parse is modelled by the aiResponse oracle:
some q is a successful call whose response parsed to q, none is a raised
exception (from the call or from json.loads). -/

structure ExamPaper where
  mcqs : List Json
  short : List Json
  long : List Json

/-- Model of add_more_questions (source lines 252-296). -/
def add_more_questions (current_exam : ExamPaper) (aiResponse : Option Json)
    (q_type : String) : ExamPaper :=
  match aiResponse with
  | none => current_exam
  | some new_q =>
    if q_type = "MCQ" then { current_exam with mcqs := current_exam.mcqs ++ [new_q] }
    else if q_type = "Short" then { current_exam with short := current_exam.short ++ [new_q] }
    else if q_type = "Long" then { current_exam with long := current_exam.long ++ [new_q] }
    else current_exam

/-! ## PDF chunking (claim C4)

split_and_upload_pdf iterates i over range(0, total_pages, chunk_size),
builds the page range from i to min(i + chunk_size, total_pages), skips
a chunk that received zero pages, and uploads the chunks in that order.
Only the page-range computation is pure; the upload itself is I/O.
Python's range(0, n, c) enumerates ceil(n / c) values, which is what
List.range' 0 ((n + c - 1) / c) c produces. -/

/-- The page ranges (start, stop) built by the loop in split_and_upload_pdf
(source lines 114-124), in processing order, with the empty-chunk skip. -/
def splitChunkRanges (total_pages chunk_size : Nat) : List (Nat × Nat) :=
  ((List.range' 0 ((total_pages + chunk_size - 1) / chunk_size) chunk_size).map
    (fun i => (i, min (i + chunk_size) total_pages))).filter
      (fun r => decide (r.2 - r.1 ≠ 0))

/-- The pages a range (start, stop) contributes: start, start+1, ..., stop-1. -/
def rangePages (r : Nat × Nat) : List Nat := List.range' r.1 (r.2 - r.1)

/-! ## Polling loop of upload_to_gemini (claim C5)

The loop keeps the last fetched file state; getFileState k is the state
string genai.get_file returns on the (k+1)-st fetch.  retry_count goes
1, 2, ... and the loop aborts once it exceeds max_retries = 30, so the
states examined by the loop condition are those of fetches 0..29; the
31st fetch (index 30) is performed by the source but its state is never
examined, which a pure model may omit.  remaining counts how many more
fetched states may still be examined. -/

/-- After the while loop, upload_to_gemini returns None for state FAILED
and the file (represented by its state string) otherwise (lines 84-88). -/
def pollExit (s : String) : Option String :=
  if s = "FAILED" then none else some s

/-- The while loop of upload_to_gemini (lines 73-82): examine the current
state; while it is PROCESSING, fetch the next state, giving up (returning
None) when the retry budget is exhausted. -/
def pollLoop (getFileState : Nat → String) : Nat → Nat → String → Option String
  | _, 0, s => if s = "PROCESSING" then none else pollExit s
  | fetched, remaining + 1, s =>
    if s = "PROCESSING" then pollLoop getFileState (fetched + 1) remaining (getFileState fetched)
    else pollExit s

/-- The poll phase of upload_to_gemini, from the state of the freshly
uploaded file, with the 30-retry budget of the source. -/
def upload_to_gemini_wait (getFileState : Nat → String) (initial : String) : Option String :=
  pollLoop getFileState 0 30 initial

/-- A state sequence that stays PROCESSING for every state the loop
examines and leaves PROCESSING (to ACTIVE) only at fetch index 30 — the
31st and last fetch, whose state the source ignores before returning None. -/
def lateActiveStates (k : Nat) : String :=
  if k < 30 then "PROCESSING" else "ACTIVE"

/-! ## MCQ scoring in student_view (claim C6)

The submission handler iterates enumerate(exam_data['mcqs']); a question
scores when answers.get(f"mcq_i") == q.get('correct').  Both sides are
Python values that may be None (a missing key, or st.radio of an empty
options list), so both are Option String and the comparison is Option
equality, matching Python's None == None = True.  Marks are the numbers
stored in the exam (ints in the model). -/

structure StudentMCQ where
  question : String
  options : List String
  correct : Option String
  marks : Int

structure StudentExam where
  mcqs : List StudentMCQ
  short : List (String × Int)
  long : List (String × Int)

/-- The score accumulation of lines 507-509: score starts at 0 and adds
q['marks'] exactly when the stored answer equals q.get('correct'). -/
def mcqScore (mcqs : List StudentMCQ) (answers : Nat → Option String) : Int :=
  mcqs.enum.foldl
    (fun score iq => if answers iq.1 = iq.2.correct then score + iq.2.marks else score) 0

/-- The running total of line 490: total_mcq_score adds q['marks'] for
every MCQ rendered. -/
def mcqTotal (mcqs : List StudentMCQ) : Int :=
  mcqs.foldl (fun total q => total + q.marks) 0

/-- The pair (score, total) the submission handler reports (line 513).
Only exam.mcqs is read; short and long answers are rendered as free-text
areas and never scored. -/
def submitResult (exam : StudentExam) (answers : Nat → Option String) : Int × Int :=
  (mcqScore exam.mcqs answers, mcqTotal exam.mcqs)

/-! ## MCQ edit pass in teacher_dashboard (claim C8)

Lines 352-361, for one MCQ: pad options with "" up to length 4 (the
while loop only appends, it never truncates), let the four text inputs
rewrite options[0..3], compute curr = q.get('correct', options[0]),
replace curr by options[0] when it is not among the options, and store
the selectbox result as the new correct answer.  Widgets are modelled by
their returned value: a text input returns the user's edit or, when the
user leaves it alone (none), its shown default; the selectbox returns
the option at the index the user picked, defaulting to the index of
curr. -/

structure EditorMCQ where
  question : String
  options : List String
  correct : Option String
  marks : Int

/-- Value returned by st.text_input with the given default. -/
def textInput (default : String) (edit : Option String) : String := edit.getD default

/-- The while loop of line 352: append "" until there are at least 4
options.  A list already holding 4 or more options is left as is. -/
def padOptions (options : List String) : List String :=
  options ++ List.replicate (4 - options.length) ""

/-- Value returned by st.selectbox over opts with the given default
index: the option at the index the user picked (the default when the
user picks nothing). -/
def selectbox (opts : List String) (defaultIdx : Nat) (pick : Option Nat) : String :=
  match pick with
  | some j => if j < opts.length then opts.getD j "" else opts.getD defaultIdx ""
  | none => opts.getD defaultIdx ""

/-- The options list after the pad loop of line 352 and the four
text_input assignments of lines 355-358. -/
def editedOptions (q : EditorMCQ) (optEdit0 optEdit1 optEdit2 optEdit3 : Option String) :
    List String :=
  let opts0 := padOptions q.options
  let opts1 := opts0.set 0 (textInput (opts0.getD 0 "") optEdit0)
  let opts2 := opts1.set 1 (textInput (opts1.getD 1 "") optEdit1)
  let opts3 := opts2.set 2 (textInput (opts2.getD 2 "") optEdit2)
  opts3.set 3 (textInput (opts3.getD 3 "") optEdit3)

/-- curr of lines 359-360: q.get('correct', options[0]), replaced by
options[0] when it is not among the options. -/
def editCurr (q : EditorMCQ) (opts : List String) : String :=
  let curr0 := q.correct.getD (opts.getD 0 "")
  if curr0 ∈ opts then curr0 else opts.getD 0 ""

/-- One MCQ after the edit pass of lines 351-363. -/
def editMCQPass (q : EditorMCQ) (questionEdit : Option String)
    (optEdit0 optEdit1 optEdit2 optEdit3 : Option String)
    (correctPick : Option Nat) (marksEdit : Option Int) : EditorMCQ :=
  let opts := editedOptions q optEdit0 optEdit1 optEdit2 optEdit3
  { question := textInput q.question questionEdit
    options := opts
    correct := some (selectbox opts (opts.indexOf (editCurr q opts)) correctPick)
    marks := marksEdit.getD q.marks }

/-! ## Role selection in main (claim C9)

main (lines 526-556) reads the query parameters, defaults the sidebar
radio to Student when exam_id is present and Teacher otherwise, lets the
visitor pick either role freely, and routes to teacher_dashboard or
student_view on that choice alone.  No user record, password or hash
appears anywhere in the source: the only password-typed widget is the
sidebar text input for the Google API key (line 547). -/

inductive Dashboard where
  | teacher
  | student
deriving DecidableEq

def role_options : List String := ["Teacher", "Student"]

/-- default_role of lines 532-537: Student when the URL carries exam_id. -/
def defaultRole (query_params : List (String × String)) : String :=
  if query_params.any (fun p => p.1 = "exam_id") then "Student" else "Teacher"

/-- role_index of line 541. -/
def roleIndex (default_role : String) : Nat :=
  if default_role = "Student" then 1 else 0

/-- The sidebar radio of line 542: the visitor picks any entry of
role_options; with no pick it shows the default index. -/
def sidebarRole (query_params : List (String × String)) (pick : Option Nat) : String :=
  let idx := match pick with
    | some j => if j < role_options.length then j else roleIndex (defaultRole query_params)
    | none => roleIndex (defaultRole query_params)
  role_options.getD idx ""

/-- The routing of lines 552-556: Teacher goes to teacher_dashboard,
anything else to student_view.  Its arguments are the whole input of the
decision: no credential is consulted. -/
def mainRoute (query_params : List (String × String)) (pick : Option Nat) : Dashboard :=
  if sidebarRole query_params pick = "Teacher" then Dashboard.teacher else Dashboard.student

/-! ## Concrete inputs used by witnesses and counterexamples -/

/-- An MCQ that arrived from the AI with five options instead of four. -/
def fiveOptionMCQ : EditorMCQ :=
  { question := "hm", options := ["a", "b", "c", "d", "e"], correct := some "a", marks := 1 }

/-- A four-option MCQ whose stored correct answer is not among its options. -/
def strayCorrectMCQ : EditorMCQ :=
  { question := "hm", options := ["a", "b", "c", "d"], correct := some "z", marks := 1 }

/-- A two-question exam for exercising the scoring bounds. -/
def scoringExam : StudentExam :=
  { mcqs := [ { question := "one", options := ["A", "B"], correct := some "A", marks := 2 },
              { question := "two", options := ["A", "B"], correct := some "B", marks := 3 } ]
    short := [("s", 2)]
    long := [("l", 3)] }

/-- Answers for scoringExam: the first question answered right, the second wrong. -/
def scoringAnswers (i : Nat) : Option String :=
  if i = 0 then some "A" else some "A"

end ExamApp

/-! # Theorems -/

namespace ExamApp

/-! ## Claim C10: atomicity of add_more_questions -/

/-- C10: for every exam and question type in MCQ, Short, Long,
add_more_questions either appends exactly one question to the matching
list, leaving the other two lists unchanged, or — when the AI call or
the JSON parse raises, modelled by the none oracle — returns the exam
completely unchanged. -/
theorem add_more_questions_atomic (exam : ExamPaper) (q : Json) :
    (∀ t, add_more_questions exam none t = exam)
    ∧ add_more_questions exam (some q) "MCQ" = { exam with mcqs := exam.mcqs ++ [q] }
    ∧ add_more_questions exam (some q) "Short" = { exam with short := exam.short ++ [q] }
    ∧ add_more_questions exam (some q) "Long" = { exam with long := exam.long ++ [q] } := by
  refine ⟨fun t => rfl, rfl, ?_, ?_⟩ <;> rfl

/-! ## Claim C5: the polling loop -/

theorem pollLoop_not_processing (f : Nat → String) (i r : Nat) (s : String)
    (h : s ≠ "PROCESSING") : pollLoop f i r s = pollExit s := by
  cases r <;> simp [pollLoop, h]

theorem pollLoop_processing_all (f : Nat → String) :
    ∀ r i, (∀ j, j < r → f (i + j) = "PROCESSING") → pollLoop f i r "PROCESSING" = none
  | 0, _, _ => by simp [pollLoop]
  | r + 1, i, h => by
    have h0 : f i = "PROCESSING" := by simpa using h 0 (Nat.succ_pos r)
    have ih := pollLoop_processing_all f r (i + 1) (fun j hj => by
      have hx := h (j + 1) (by omega)
      have e : i + (j + 1) = i + 1 + j := by omega
      rwa [e] at hx)
    simp [pollLoop, h0, ih]

theorem pollLoop_first_exit (f : Nat → String) :
    ∀ k r i, k < r → (∀ j, j < k → f (i + j) = "PROCESSING") → f (i + k) ≠ "PROCESSING" →
      pollLoop f i r "PROCESSING" = pollExit (f (i + k))
  | 0, r + 1, i, _, _, hne => by
    have hne0 : f i ≠ "PROCESSING" := by rwa [Nat.add_zero] at hne
    simp [pollLoop, pollLoop_not_processing f (i + 1) r (f i) hne0]
  | k + 1, r + 1, i, hk, hall, hne => by
    have h0 : f i = "PROCESSING" := by simpa using hall 0 (Nat.succ_pos k)
    have ih := pollLoop_first_exit f k r (i + 1) (by omega)
      (fun j hj => by
        have hx := hall (j + 1) (by omega)
        have e : i + (j + 1) = i + 1 + j := by omega
        rwa [e] at hx)
      (by
        have e : i + (k + 1) = i + 1 + k := by omega
        rwa [e] at hne)
    have e2 : i + 1 + k = i + (k + 1) := by omega
    rw [e2] at ih
    simp [pollLoop, h0, ih]

/-- C5 amended: the polling loop always terminates, and
(1) an initial state other than PROCESSING is returned at once (None
when it is FAILED),
(2) when some fetch among the first 30 returns a non-PROCESSING state,
the loop stops at the first such fetch and returns that file (None when
that state is FAILED),
(3) when the first 30 fetched states are all PROCESSING, the loop gives
up and returns None — even if the state leaves PROCESSING at the 31st
fetch, whose result the source code ignores before timing out. -/
theorem upload_poll_spec (getFileState : Nat → String) :
    (∀ s, s ≠ "PROCESSING" → upload_to_gemini_wait getFileState s = pollExit s)
    ∧ (∀ k, k < 30 → (∀ j, j < k → getFileState j = "PROCESSING") →
        getFileState k ≠ "PROCESSING" →
        upload_to_gemini_wait getFileState "PROCESSING" = pollExit (getFileState k))
    ∧ ((∀ k, k < 30 → getFileState k = "PROCESSING") →
        upload_to_gemini_wait getFileState "PROCESSING" = none) := by
  refine ⟨fun s h => pollLoop_not_processing _ _ _ _ h, fun k hk hall hne => ?_, fun hall => ?_⟩
  · have h := pollLoop_first_exit getFileState k 30 0 hk
      (fun j hj => by simpa using hall j (by omega)) (by simpa using hne)
    simpa [upload_to_gemini_wait] using h
  · exact pollLoop_processing_all getFileState 30 0 (fun j hj => by simpa using hall j hj)

/-- C5 witness: a file whose very first examined state is FAILED gives
None, via clause (1) of upload_poll_spec. -/
theorem upload_poll_spec_witness :
    upload_to_gemini_wait (fun _ => "ACTIVE") "FAILED" = none := by
  have h := (upload_poll_spec (fun _ => "ACTIVE")).1 "FAILED" (by decide)
  simpa [pollExit] using h

/-- C5 counterexample to the claim as stated: under lateActiveStates the
file state does leave PROCESSING (to ACTIVE, not FAILED) within the
claimed 31-poll budget — at the 31st fetch, index 30 — yet the loop
returns None rather than the file, because the retry check fires after
that fetch without examining it. -/
theorem upload_poll_claim_cex :
    upload_to_gemini_wait lateActiveStates "PROCESSING" = none
    ∧ lateActiveStates 30 = "ACTIVE"
    ∧ ((List.range 31).any (fun k => lateActiveStates k ≠ "PROCESSING")) = true
    ∧ upload_to_gemini_wait lateActiveStates "PROCESSING" ≠ some "ACTIVE" := by
  have h : upload_to_gemini_wait lateActiveStates "PROCESSING" = none :=
    pollLoop_processing_all lateActiveStates 30 0
      (fun j hj => by simp [lateActiveStates, hj])
  refine ⟨h, rfl, by decide, by simp [h]⟩

/-! ## Claim C9: authentication -/

/-- C9 amended: the program has no authentication subsystem.  The role
decision of main is a function of the URL query parameters and the
sidebar radio pick alone: any visitor who picks Teacher (index 0) gets
the teacher dashboard and any visitor who picks Student (index 1) gets
the student view, with no user record, password hash, or user file
consulted; with no pick, the role defaults to Student exactly when the
URL carries an exam_id parameter. -/
theorem role_selection_unauthenticated (query_params : List (String × String)) :
    mainRoute query_params (some 0) = Dashboard.teacher
    ∧ mainRoute query_params (some 1) = Dashboard.student
    ∧ ((query_params.any fun p => p.1 = "exam_id") = false →
        mainRoute query_params none = Dashboard.teacher)
    ∧ ((query_params.any fun p => p.1 = "exam_id") = true →
        mainRoute query_params none = Dashboard.student) := by
  refine ⟨rfl, rfl, fun h => ?_, fun h => ?_⟩ <;>
    simp [mainRoute, sidebarRole, defaultRole, roleIndex, role_options, h]

/-- C9 witness: a visitor arriving through an exam link defaults to the
student view, via the last clause of role_selection_unauthenticated. -/
theorem role_selection_unauthenticated_witness :
    mainRoute [("exam_id", "abc")] none = Dashboard.student :=
  (role_selection_unauthenticated [("exam_id", "abc")]).2.2.2 (by decide)

/-- C9 counterexample to the claim as stated: at the concrete input of a
visitor with an empty query string, the teacher dashboard is granted on
the radio pick alone — there is no login or password check to pass, so
no SHA-256-hashing authentication over a user file exists in the
program. -/
theorem teacher_access_without_credentials :
    mainRoute [] (some 0) = Dashboard.teacher ∧ mainRoute [] none = Dashboard.teacher :=
  ⟨rfl, rfl⟩

/-! ## Claim C8: the MCQ edit pass -/

theorem getD_mem (l : List String) (n : Nat) (h : n < l.length) : l.getD n "" ∈ l := by
  rw [List.getD_eq_getElem l "" h]
  exact List.getElem_mem h

theorem selectbox_mem (opts : List String) (d : Nat) (pick : Option Nat)
    (hd : d < opts.length) : selectbox opts d pick ∈ opts := by
  match pick with
  | none => exact getD_mem _ _ hd
  | some j =>
    by_cases hj : j < opts.length
    · show (if j < opts.length then opts.getD j "" else opts.getD d "") ∈ opts
      rw [if_pos hj]
      exact getD_mem _ _ hj
    · show (if j < opts.length then opts.getD j "" else opts.getD d "") ∈ opts
      rw [if_neg hj]
      exact getD_mem _ _ hd

theorem editedOptions_length (q : EditorMCQ) (o0 o1 o2 o3 : Option String) :
    (editedOptions q o0 o1 o2 o3).length = max 4 q.options.length := by
  simp [editedOptions, padOptions]
  omega

theorem editCurr_mem (q : EditorMCQ) (opts : List String) (h : 0 < opts.length) :
    editCurr q opts ∈ opts := by
  simp only [editCurr]
  by_cases hc : q.correct.getD (opts.getD 0 "") ∈ opts
  · rw [if_pos hc]
    exact hc
  · rw [if_neg hc]
    exact getD_mem _ _ h

/-- C8 amended: after the teacher edit pass, for every MCQ and every
way the user fills the widgets, the options list has at least 4 entries
(exactly 4 whenever the incoming MCQ had at most 4 — the pad loop only
appends, so a longer list keeps its length), and the stored correct
answer is an element of the options list; moreover, when the stored
correct value is not among the edited options and the user leaves the
selectbox alone, the first option is stored. -/
theorem editMCQPass_spec (q : EditorMCQ) (qe o0 o1 o2 o3 : Option String)
    (pick : Option Nat) (me : Option Int) :
    4 ≤ (editMCQPass q qe o0 o1 o2 o3 pick me).options.length
    ∧ (editMCQPass q qe o0 o1 o2 o3 pick me).options.length = max 4 q.options.length
    ∧ (q.options.length ≤ 4 → (editMCQPass q qe o0 o1 o2 o3 pick me).options.length = 4)
    ∧ (∃ c, (editMCQPass q qe o0 o1 o2 o3 pick me).correct = some c
        ∧ c ∈ (editMCQPass q qe o0 o1 o2 o3 pick me).options)
    ∧ (∀ c0, pick = none → q.correct = some c0 →
        c0 ∉ (editMCQPass q qe o0 o1 o2 o3 pick me).options →
        (editMCQPass q qe o0 o1 o2 o3 pick me).correct
          = some ((editMCQPass q qe o0 o1 o2 o3 pick me).options.getD 0 "")) := by
  have hopts : (editMCQPass q qe o0 o1 o2 o3 pick me).options
      = editedOptions q o0 o1 o2 o3 := rfl
  have hlen := editedOptions_length q o0 o1 o2 o3
  have hopl : (editMCQPass q qe o0 o1 o2 o3 pick me).options.length
      = (editedOptions q o0 o1 o2 o3).length := by rw [hopts]
  have h4 : 4 ≤ (editedOptions q o0 o1 o2 o3).length := by omega
  have hpos : 0 < (editedOptions q o0 o1 o2 o3).length := by omega
  have hcurr := editCurr_mem q (editedOptions q o0 o1 o2 o3) hpos
  have hidx : (editedOptions q o0 o1 o2 o3).indexOf (editCurr q (editedOptions q o0 o1 o2 o3))
      < (editedOptions q o0 o1 o2 o3).length := List.indexOf_lt_length.mpr hcurr
  refine ⟨by omega, by omega, fun hle => by omega, ?_, ?_⟩
  · exact ⟨selectbox (editedOptions q o0 o1 o2 o3) _ pick, rfl,
      by rw [hopts]; exact selectbox_mem _ _ pick hidx⟩
  · intro c0 hpick hc0 hnot
    rw [hopts] at hnot
    subst hpick
    have hcc : editCurr q (editedOptions q o0 o1 o2 o3)
        = (editedOptions q o0 o1 o2 o3).getD 0 "" := by
      simp only [editCurr, hc0, Option.getD_some]
      rw [if_neg hnot]
    obtain ⟨x, t, hxt⟩ : ∃ x t, editedOptions q o0 o1 o2 o3 = x :: t := by
      match hE : editedOptions q o0 o1 o2 o3 with
      | [] => rw [hE] at hpos; simp at hpos
      | x :: t => exact ⟨x, t, rfl⟩
    have hcorr : (editMCQPass q qe o0 o1 o2 o3 none me).correct
        = some (selectbox (editedOptions q o0 o1 o2 o3)
            ((editedOptions q o0 o1 o2 o3).indexOf
              (editCurr q (editedOptions q o0 o1 o2 o3))) none) := rfl
    rw [hcorr, hopts, hcc, hxt]
    simp [selectbox, List.indexOf_cons_self]

/-- C8 witness: on strayCorrectMCQ (four options, stored correct answer
"z" not among them), with every widget left at its default, the pass
yields exactly 4 options and stores the first option "a" as correct,
through editMCQPass_spec. -/
theorem editMCQPass_spec_witness :
    (editMCQPass strayCorrectMCQ none none none none none none none).options.length = 4
    ∧ (editMCQPass strayCorrectMCQ none none none none none none none).correct
      = some ((editMCQPass strayCorrectMCQ none none none none none none none).options.getD 0 "") := by
  refine ⟨(editMCQPass_spec strayCorrectMCQ none none none none none none none).2.2.1 (by decide),
    (editMCQPass_spec strayCorrectMCQ none none none none none none none).2.2.2.2 "z" rfl rfl ?_⟩
  decide

/-- C8 counterexample to the claim as stated: an MCQ that arrives with
five options still has five (not exactly four) after the edit pass: the
pad loop of line 352 only appends up to four, it never truncates. -/
theorem editMCQPass_five_options_cex :
    (editMCQPass fiveOptionMCQ none none none none none none none).options.length = 5
    ∧ ¬ (editMCQPass fiveOptionMCQ none none none none none none none).options.length = 4 := by
  refine ⟨rfl, by decide⟩

/-! ## Claim C6: MCQ scoring -/

theorem foldl_add_eq_sum {α : Type} (g : α → Int) :
    ∀ (l : List α) (init : Int), l.foldl (fun a x => a + g x) init = init + (l.map g).sum
  | [], init => by simp
  | x :: xs, init => by
    simp only [List.foldl_cons, List.map_cons, List.sum_cons,
      foldl_add_eq_sum g xs (init + g x)]
    ring

theorem foldl_score_eq (ans : Nat → Option String) :
    ∀ (l : List (Nat × StudentMCQ)) (init : Int),
      l.foldl (fun s iq => if ans iq.1 = iq.2.correct then s + iq.2.marks else s) init
      = init + ((l.filter fun iq => decide (ans iq.1 = iq.2.correct)).map
          fun iq => iq.2.marks).sum
  | [], init => by simp
  | iq :: xs, init => by
    by_cases hc : ans iq.1 = iq.2.correct
    · have hd : decide (ans iq.1 = iq.2.correct) = true := decide_eq_true hc
      rw [List.foldl_cons, if_pos hc, foldl_score_eq ans xs (init + iq.2.marks),
        List.filter_cons, if_pos hd, List.map_cons, List.sum_cons]
      ring
    · have hd : ¬ decide (ans iq.1 = iq.2.correct) = true := by simpa using hc
      rw [List.foldl_cons, if_neg hc, foldl_score_eq ans xs init, List.filter_cons, if_neg hd]

theorem filtered_sum_bounds {α : Type} (g : α → Int) (p : α → Bool) :
    ∀ l : List α, (∀ x ∈ l, 0 ≤ g x) →
      0 ≤ ((l.filter p).map g).sum ∧ ((l.filter p).map g).sum ≤ (l.map g).sum
  | [] => fun _ => by simp
  | x :: xs => fun h => by
    have hx : 0 ≤ g x := h x (by simp)
    have ih := filtered_sum_bounds g p xs (fun y hy => h y (by simp [hy]))
    by_cases hp : p x = true
    · rw [List.filter_cons, if_pos hp, List.map_cons, List.sum_cons, List.map_cons,
        List.sum_cons]
      exact ⟨by linarith [ih.1], by linarith [ih.2]⟩
    · rw [List.filter_cons, if_neg hp, List.map_cons, List.sum_cons]
      exact ⟨ih.1, by linarith [ih.2]⟩

theorem enum_snd_mem {l : List StudentMCQ} {iq : Nat × StudentMCQ} (h : iq ∈ l.enum) :
    iq.2 ∈ l := by
  have hm := List.mem_map_of_mem Prod.snd h
  rwa [show List.map Prod.snd l.enum = l from List.enumFrom_map_snd 0 l] at hm

/-- C6: on submission the reported MCQ score is the sum of q.marks over
exactly those MCQs whose stored answer equals q.get('correct'), the
reported total is the sum of q.marks over all MCQs, hence 0 ≤ score ≤
total whenever all marks are non-negative; the short and long answer
lists contribute nothing to either number. -/
theorem student_mcq_scoring (exam : StudentExam) (answers : Nat → Option String) :
    (submitResult exam answers).1
      = ((exam.mcqs.enum.filter fun iq => decide (answers iq.1 = iq.2.correct)).map
          fun iq => iq.2.marks).sum
    ∧ (submitResult exam answers).2 = (exam.mcqs.map fun q => q.marks).sum
    ∧ ((∀ q ∈ exam.mcqs, 0 ≤ q.marks) →
        0 ≤ (submitResult exam answers).1
        ∧ (submitResult exam answers).1 ≤ (submitResult exam answers).2)
    ∧ (∀ s l, submitResult { exam with short := s, long := l } answers
        = submitResult exam answers) := by
  have hscore : (submitResult exam answers).1
      = ((exam.mcqs.enum.filter fun iq => decide (answers iq.1 = iq.2.correct)).map
          fun iq => iq.2.marks).sum := by
    simpa using foldl_score_eq answers exam.mcqs.enum 0
  have htotal : (submitResult exam answers).2 = (exam.mcqs.map fun q => q.marks).sum := by
    simpa using foldl_add_eq_sum (fun q : StudentMCQ => q.marks) exam.mcqs 0
  refine ⟨hscore, htotal, fun h => ?_, fun s l => rfl⟩
  have hmem : ∀ iq ∈ exam.mcqs.enum, 0 ≤ iq.2.marks := fun iq hiq => h _ (enum_snd_mem hiq)
  have hb := filtered_sum_bounds (fun iq : Nat × StudentMCQ => iq.2.marks)
    (fun iq => decide (answers iq.1 = iq.2.correct)) exam.mcqs.enum hmem
  refine ⟨by rw [hscore]; exact hb.1, ?_⟩
  rw [hscore, htotal]
  refine le_trans hb.2 (le_of_eq ?_)
  conv_rhs => rw [show exam.mcqs = List.map Prod.snd exam.mcqs.enum from
    (List.enumFrom_map_snd 0 exam.mcqs).symm]
  rw [List.map_map]
  rfl

/-- C6 witness: on the concrete scoringExam with the first question
answered correctly and the second not, the bounds 0 ≤ score ≤ total
hold, via student_mcq_scoring. -/
theorem student_mcq_scoring_witness :
    0 ≤ (submitResult scoringExam scoringAnswers).1
    ∧ (submitResult scoringExam scoringAnswers).1 ≤ (submitResult scoringExam scoringAnswers).2 :=
  (student_mcq_scoring scoringExam scoringAnswers).2.2.1 (by decide)

/-! ## Claim C4: PDF chunking -/

theorem range'_step10 : ∀ (m s : Nat), List.range' s m 10 = (List.range m).map fun k => s + 10 * k
  | 0, _ => by simp
  | m + 1, s => by
    rw [List.range'_succ, range'_step10 m (s + 10), List.range_succ_eq_map]
    simp only [List.map_cons, List.map_map, Nat.mul_zero, Nat.add_zero]
    refine congrArg (List.cons s) (List.map_congr_left fun k _ => ?_)
    simp only [Function.comp_apply, Nat.succ_eq_add_one]
    ring

theorem chunkCoverAux : ∀ (m s n : Nat), s ≤ n → n ≤ s + 10 * m →
    ((List.range m).map fun k =>
        List.range' (s + 10 * k) (min (s + 10 * k + 10) n - (s + 10 * k))).flatten
      = List.range' s (n - s)
  | 0, s, n, h1, h2 => by
    have he : n = s := by omega
    subst he
    simp
  | m + 1, s, n, h1, h2 => by
    rw [List.range_succ_eq_map]
    simp only [List.map_cons, List.map_map, List.flatten_cons, Nat.mul_zero, Nat.add_zero]
    by_cases hc : n ≤ s + 10
    · have hrest : ((List.range m).map
          ((fun k => List.range' (s + 10 * k) (min (s + 10 * k + 10) n - (s + 10 * k)))
            ∘ Nat.succ)).flatten = [] := by
        rw [List.flatten_eq_nil_iff]
        intro l hl
        obtain ⟨k, _, rfl⟩ := List.mem_map.mp hl
        have he : min (s + 10 * (k + 1) + 10) n - (s + 10 * (k + 1)) = 0 := by omega
        simp only [Function.comp_apply, Nat.succ_eq_add_one, he, List.range'_zero]
      rw [hrest, List.append_nil]
      have he : min (s + 10) n = n := by omega
      rw [he]
    · have he : min (s + 10) n = s + 10 := by omega
      rw [he]
      have hrw : ((List.range m).map
          ((fun k => List.range' (s + 10 * k) (min (s + 10 * k + 10) n - (s + 10 * k)))
            ∘ Nat.succ))
          = ((List.range m).map fun k =>
              List.range' (s + 10 + 10 * k) (min (s + 10 + 10 * k + 10) n - (s + 10 + 10 * k))) :=
        List.map_congr_left fun k _ => by
          simp only [Function.comp_apply, Nat.succ_eq_add_one]
          have e1 : s + 10 * (k + 1) = s + 10 + 10 * k := by ring
          rw [e1]
      rw [hrw, chunkCoverAux m (s + 10) n (by omega) (by omega)]
      have e2 : s + 10 - s = 10 := by omega
      rw [e2]
      have := List.range'_append_1 s 10 (n - (s + 10))
      rw [this]
      have e3 : n - (s + 10) + 10 = n - s := by omega
      rw [e3]

/-- C4: with the default chunk_size = 10, for a readable PDF of n ≥ 1
pages, split_and_upload_pdf builds exactly the consecutive page ranges
from 10k to min(10k + 10, n) for k = 0, 1, ..., in increasing order,
ceil(n / 10) chunks in all, each of 1 to 10 pages, and their pages laid
end to end are exactly the pages 0, ..., n-1 of the document — every
page in exactly one chunk. -/
theorem split_and_upload_chunks (n : Nat) (h : 1 ≤ n) :
    splitChunkRanges n 10
      = (List.range ((n + 9) / 10)).map (fun k => (10 * k, min (10 * k + 10) n))
    ∧ ((splitChunkRanges n 10).map rangePages).flatten = List.range n
    ∧ (splitChunkRanges n 10).length = (n + 9) / 10
    ∧ ∀ r ∈ splitChunkRanges n 10, 1 ≤ r.2 - r.1 ∧ r.2 - r.1 ≤ 10 := by
  have hmap : splitChunkRanges n 10
      = (List.range ((n + 9) / 10)).map (fun k => (10 * k, min (10 * k + 10) n)) := by
    unfold splitChunkRanges
    rw [show n + 10 - 1 = n + 9 from by omega, range'_step10, List.map_map]
    have hfix : ((fun i => (i, min (i + 10) n)) ∘ fun k => 0 + 10 * k)
        = fun k => (10 * k, min (10 * k + 10) n) := by
      funext k
      simp only [Function.comp_apply, Nat.zero_add]
    rw [hfix]
    apply List.filter_eq_self.mpr
    intro r hr
    obtain ⟨k, hk, rfl⟩ := List.mem_map.mp hr
    have hk' : k < (n + 9) / 10 := List.mem_range.mp hk
    simp only [decide_eq_true_eq]
    omega
  refine ⟨hmap, ?_, by rw [hmap]; simp, ?_⟩
  · rw [hmap, List.map_map]
    have hfix : (rangePages ∘ fun k => (10 * k, min (10 * k + 10) n))
        = fun k => List.range' (0 + 10 * k) (min (0 + 10 * k + 10) n - (0 + 10 * k)) := by
      funext k
      simp only [Function.comp_apply, rangePages, Nat.zero_add]
    rw [hfix, chunkCoverAux ((n + 9) / 10) 0 n (by omega) (by omega)]
    rw [Nat.sub_zero, List.range_eq_range']
  · intro r hr
    rw [hmap] at hr
    obtain ⟨k, hk, rfl⟩ := List.mem_map.mp hr
    have hk' : k < (n + 9) / 10 := List.mem_range.mp hk
    simp only
    omega

/-- C4 witness: a 25-page PDF is split into the ranges covering pages
0..24 exactly once, via split_and_upload_chunks at n = 25. -/
theorem split_and_upload_chunks_witness :
    ((splitChunkRanges 25 10).map rangePages).flatten = List.range 25 :=
  (split_and_upload_chunks 25 (by decide)).2.1

/-! ## Codec, part 1: characters and decimal numbers -/

theorem toNat_ofNat_valid (n : Nat) (h : n.isValidChar) : (Char.ofNat n).toNat = n := by
  simp only [Char.ofNat, dif_pos h]
  rfl

theorem toNat_ofNat_small (n : Nat) (h : n < 55296) : (Char.ofNat n).toNat = n :=
  toNat_ofNat_valid n (Or.inl h)

theorem toNat_digitChar (d : Nat) (h : d < 10) : (digitChar d).toNat = 48 + d :=
  toNat_ofNat_small (48 + d) (by omega)

theorem isDigitChar_digitChar (d : Nat) (h : d < 10) : isDigitChar (digitChar d) = true := by
  simp only [isDigitChar, toNat_digitChar d h, Bool.and_eq_true, decide_eq_true_eq]
  omega

theorem isDigitChar_toNat {c : Char} (h : isDigitChar c = true) :
    48 ≤ c.toNat ∧ c.toNat ≤ 57 := by
  simpa only [isDigitChar, Bool.and_eq_true, decide_eq_true_eq] using h

theorem natCharsAux_fuel : ∀ n f1 f2, n < f1 → n < f2 → natCharsAux f1 n = natCharsAux f2 n := by
  intro n
  induction n using Nat.strongRecOn with
  | _ n ih =>
    intro f1 f2 h1 h2
    match f1, f2 with
    | f1 + 1, f2 + 1 =>
      simp only [natCharsAux]
      by_cases h10 : n < 10
      · simp [h10]
      · rw [if_neg h10, if_neg h10, ih (n / 10) (by omega) f1 f2 (by omega) (by omega)]

theorem natChars_unfold (n : Nat) :
    natChars n = if n < 10 then [digitChar n] else natChars (n / 10) ++ [digitChar (n % 10)] := by
  show natCharsAux (n + 1) n = _
  by_cases h10 : n < 10
  · simp [natCharsAux, h10]
  · simp only [natCharsAux, if_neg h10]
    rw [natCharsAux_fuel (n / 10) n (n / 10 + 1) (by omega) (by omega)]
    rfl

theorem natChars_ne_nil (n : Nat) : natChars n ≠ [] := by
  rw [natChars_unfold]
  by_cases h : n < 10 <;> simp [h]

theorem natChars_digits (n : Nat) : ∀ c ∈ natChars n, isDigitChar c = true := by
  induction n using Nat.strongRecOn with
  | _ n ih =>
    rw [natChars_unfold]
    by_cases h : n < 10
    · simp only [if_pos h, List.mem_singleton]
      rintro c rfl
      exact isDigitChar_digitChar n h
    · simp only [if_neg h, List.mem_append, List.mem_singleton]
      rintro c (hc | rfl)
      · exact ih (n / 10) (by omega) c hc
      · exact isDigitChar_digitChar (n % 10) (by omega)

theorem digitsVal_append_digit (l : List Char) (c : Char) :
    digitsVal (l ++ [c]) = digitsVal l * 10 + (c.toNat - 48) := by
  simp [digitsVal, List.foldl_append]

theorem digitsVal_natChars (n : Nat) : digitsVal (natChars n) = n := by
  induction n using Nat.strongRecOn with
  | _ n ih =>
    rw [natChars_unfold]
    by_cases h : n < 10
    · simp only [if_pos h]
      simp [digitsVal, toNat_digitChar n h]
    · rw [if_neg h, digitsVal_append_digit, ih (n / 10) (by omega),
        toNat_digitChar (n % 10) (by omega)]
      omega

theorem natChars_head_pos : ∀ n, 0 < n →
    ∃ c t, natChars n = c :: t ∧ isDigitChar c = true ∧ c ≠ '0' := by
  intro n
  induction n using Nat.strongRecOn with
  | _ n ih =>
    intro hn
    rw [natChars_unfold]
    by_cases h : n < 10
    · refine ⟨digitChar n, [], by simp [h], isDigitChar_digitChar n h, fun he => ?_⟩
      have h48 := congrArg Char.toNat he
      rw [toNat_digitChar n h] at h48
      have : (48 : Nat) + n = 48 := by simpa using h48
      omega
    · obtain ⟨c, t, hct, hd, hz⟩ := ih (n / 10) (by omega) (by omega)
      exact ⟨c, t ++ [digitChar (n % 10)], by rw [if_neg h, hct]; rfl, hd, hz⟩

theorem natChars_head : ∀ n, ∃ c t, natChars n = c :: t ∧ isDigitChar c = true := by
  intro n
  match h : natChars n with
  | [] => exact absurd h (natChars_ne_nil _)
  | c :: t =>
    refine ⟨c, t, rfl, natChars_digits n c ?_⟩
    rw [h]
    exact List.mem_cons_self _ _

theorem takeDigits_boundary (cs : List Char) (h : numBoundary cs = true) :
    takeDigits cs = ([], cs) := by
  match cs with
  | [] => rfl
  | c :: t =>
    have hc : isDigitChar c = false := by simpa [numBoundary] using h
    simp [takeDigits, hc]

theorem takeDigits_run : ∀ (ds : List Char), (∀ c ∈ ds, isDigitChar c = true) →
    ∀ (rest : List Char), takeDigits rest = ([], rest) →
    takeDigits (ds ++ rest) = (ds, rest)
  | [], _, rest, hrest => by simpa using hrest
  | c :: t, hds, rest, hrest => by
    have hdig := hds c (List.mem_cons_self c t)
    have htail := takeDigits_run t (fun x hx => hds x (List.mem_cons_of_mem c hx)) rest hrest
    simp [takeDigits, hdig, htail]

theorem parseIntPart_natChars (n : Nat) (rest : List Char) (hb : numBoundary rest = true) :
    parseIntPart (natChars n ++ rest) = some (n, rest) := by
  by_cases hn : n = 0
  · subst hn
    have h0 : natChars 0 = ['0'] := by decide
    rw [h0]
    show parseIntPart ('0' :: rest) = some (0, rest)
    simp [parseIntPart]
  · obtain ⟨c, t, hct, hd, hz⟩ := natChars_head_pos n (Nat.pos_of_ne_zero hn)
    have htd : takeDigits (t ++ rest) = (t, rest) :=
      takeDigits_run t
        (fun x hx => natChars_digits n x (by rw [hct]; exact List.mem_cons_of_mem c hx))
        rest (takeDigits_boundary rest hb)
    have hdv : digitsVal (c :: t) = n := by
      rw [← hct]
      exact digitsVal_natChars n
    rw [hct]
    show parseIntPart (c :: (t ++ rest)) = some (n, rest)
    simp only [parseIntPart]
    rw [if_neg hz, if_pos hd, htd, hdv]

theorem parseNumber_intChars (i : Int) (rest : List Char) (hb : numBoundary rest = true) :
    parseNumber (intChars i ++ rest) = some (i, rest) := by
  by_cases hi : i < 0
  · rw [intChars, if_pos hi]
    show parseNumber ('-' :: (natChars i.natAbs ++ rest)) = some (i, rest)
    simp only [parseNumber, if_pos rfl]
    rw [parseIntPart_natChars i.natAbs rest hb]
    show some (-((i.natAbs : Nat) : Int), rest) = some (i, rest)
    have he : -((i.natAbs : Nat) : Int) = i := by omega
    rw [he]
  · rw [intChars, if_neg hi]
    obtain ⟨c, t, hct, hd⟩ := natChars_head i.natAbs
    have hcm : c ≠ '-' := fun he => by
      rw [he] at hd
      exact absurd hd (by decide)
    rw [hct]
    show parseNumber (c :: (t ++ rest)) = some (i, rest)
    simp only [parseNumber]
    rw [if_neg hcm]
    have hip : parseIntPart (c :: (t ++ rest)) = some (i.natAbs, rest) := by
      rw [show c :: (t ++ rest) = natChars i.natAbs ++ rest from by rw [hct]; rfl]
      exact parseIntPart_natChars i.natAbs rest hb
    rw [hip]
    show some (((i.natAbs : Nat) : Int), rest) = some (i, rest)
    have he : ((i.natAbs : Nat) : Int) = i := by omega
    rw [he]

/-! ## Codec, part 2: string escapes -/

theorem hexVal_hexDigitChar (d : Nat) (h : d < 16) : hexVal (hexDigitChar d) = some d := by
  by_cases h10 : d < 10
  · have ht : (hexDigitChar d).toNat = 48 + d := by
      simp only [hexDigitChar, if_pos h10]
      exact toNat_ofNat_small _ (by omega)
    simp only [hexVal, ht]
    rw [if_pos (by omega)]
    simp
  · have ht : (hexDigitChar d).toNat = 87 + d := by
      simp only [hexDigitChar, if_neg h10]
      exact toNat_ofNat_small _ (by omega)
    simp only [hexVal, ht]
    rw [if_neg (by omega), if_pos (by omega)]
    congr 1
    omega

theorem hex4Val_hex4Chars (m : Nat) (h : m < 65536) :
    hex4Val (hexDigitChar (m / 4096 % 16)) (hexDigitChar (m / 256 % 16))
      (hexDigitChar (m / 16 % 16)) (hexDigitChar (m % 16)) = some m := by
  rw [hex4Val, hexVal_hexDigitChar _ (by omega), hexVal_hexDigitChar _ (by omega),
    hexVal_hexDigitChar _ (by omega), hexVal_hexDigitChar _ (by omega)]
  show some (((m / 4096 % 16 * 16 + m / 256 % 16) * 16 + m / 16 % 16) * 16 + m % 16) = some m
  congr 1
  omega

theorem escapeStr_nil : escapeStr [] = [] := rfl

theorem escapeStr_cons (p : Nat) (ps : List Nat) :
    escapeStr (p :: ps) = escapePoint p ++ escapeStr ps := by
  simp [escapeStr]

theorem hex4Chars_expand (m : Nat) (t : List Char) :
    hex4Chars m ++ t
      = hexDigitChar (m / 4096 % 16) :: hexDigitChar (m / 256 % 16)
        :: hexDigitChar (m / 16 % 16) :: hexDigitChar (m % 16) :: t := rfl

theorem parseStrBody_simple (f : Nat) (e : Char) (p : Nat) (he : simpleEscape e = some p)
    (hu : e ≠ 'u') (t : List Char) :
    parseStrBody (f + 1) ('\\' :: e :: t)
      = match parseStrBody f t with
        | some (ps, r) => some (p :: ps, r)
        | none => none := by
  simp only [parseStrBody]
  rw [if_neg (by decide : ¬('\\' = '"')), if_true, if_neg hu, he]

theorem parseStrBody_literal (f : Nat) (c0 : Char) (h1 : c0 ≠ '"') (h2 : c0 ≠ '\\')
    (h3 : ¬ c0.toNat < 32) (t : List Char) :
    parseStrBody (f + 1) (c0 :: t)
      = match parseStrBody f t with
        | some (ps, r) => some (c0.toNat :: ps, r)
        | none => none := by
  simp only [parseStrBody]
  rw [if_neg h1, if_neg h2, if_neg h3]

theorem parseStrBody_hex_notHigh (f m : Nat) (t : List Char) (hm : m < 65536)
    (hns : ¬(55296 ≤ m ∧ m ≤ 56319)) :
    parseStrBody (f + 1) ('\\' :: 'u' :: (hex4Chars m ++ t))
      = match parseStrBody f t with
        | some (ps, r) => some (m :: ps, r)
        | none => none := by
  rw [hex4Chars_expand]
  simp only [parseStrBody]
  rw [if_neg (by decide : ¬('\\' = '"')), if_true, if_true, hex4Val_hex4Chars m hm]
  split
  · rename_i heq
    exact Option.noConfusion heq
  · rename_i h heq
    injection heq with hh
    subst hh
    rw [if_neg hns]

theorem parseStrBody_hex_high_nomerge (f m : Nat) (t : List Char)
    (hm : 55296 ≤ m ∧ m ≤ 56319)
    (hshape : (∃ c0 t2, t = c0 :: t2 ∧ c0 ≠ '\\')
      ∨ (∃ e t2, t = '\\' :: e :: t2 ∧ e ≠ 'u')
      ∨ (∃ m2 t2, t = '\\' :: 'u' :: (hex4Chars m2 ++ t2) ∧ m2 < 65536
          ∧ ¬(56320 ≤ m2 ∧ m2 ≤ 57343))) :
    parseStrBody (f + 1) ('\\' :: 'u' :: (hex4Chars m ++ t))
      = match parseStrBody f t with
        | some (ps, r) => some (m :: ps, r)
        | none => none := by
  rw [hex4Chars_expand]
  simp only [parseStrBody]
  rw [if_neg (by decide : ¬('\\' = '"')), if_true, if_true, hex4Val_hex4Chars m (by omega)]
  split
  · rename_i heq
    exact Option.noConfusion heq
  rename_i h heq
  injection heq with hh
  subst hh
  rw [if_pos hm]
  rcases hshape with ⟨c0, t2, rfl, hc0⟩ | ⟨e, t2, rfl, he⟩ | ⟨m2, t2, rfl, hm2, hlow⟩
  · split
    · rename_i heq
      injection heq with h1 _
      exact absurd h1 hc0
    · rfl
  · split
    · rename_i heq
      injection heq with _ h2
      injection h2 with h2a _
      exact absurd h2a he
    · rfl
  · split
    · rename_i a2 b2 c2 d2 cs4 heq
      rw [hex4Chars_expand] at heq
      injection heq with _ h2
      injection h2 with _ h3
      injection h3 with ha h4
      injection h4 with hb h5
      injection h5 with hc h6
      injection h6 with hd h7
      rw [← ha, ← hb, ← hc, ← hd, hex4Val_hex4Chars m2 hm2]
      split
      · rename_i l heq2
        injection heq2 with hl
        subst hl
        rw [if_neg hlow]
      · rename_i heq2
        exact Option.noConfusion heq2
    · rename_i hne
      exact absurd (by rw [hex4Chars_expand]) (hne (hexDigitChar (m2 / 4096 % 16))
        (hexDigitChar (m2 / 256 % 16)) (hexDigitChar (m2 / 16 % 16)) (hexDigitChar (m2 % 16)) t2)

theorem noSurrPair_tail {p : Nat} {ps : List Nat} (h : noSurrPair (p :: ps) = true) :
    noSurrPair ps = true := by
  match ps with
  | [] => rfl
  | q :: qs =>
    by_cases hc : 55296 ≤ p ∧ p ≤ 56319 ∧ 56320 ≤ q ∧ q ≤ 57343
    · rw [noSurrPair, if_pos hc] at h
      exact absurd h (by decide)
    · rwa [noSurrPair, if_neg hc] at h

theorem noSurrPair_head_pair {p q : Nat} {qs : List Nat}
    (h : noSurrPair (p :: q :: qs) = true) (hp : 55296 ≤ p ∧ p ≤ 56319) :
    ¬(56320 ≤ q ∧ q ≤ 57343) := by
  intro hql
  rw [noSurrPair, if_pos ⟨hp.1, hp.2, hql.1, hql.2⟩] at h
  exact absurd h (by decide)

theorem ofNat_ne_of_toNat_ne (p : Nat) (c : Char) (hp : p < 55296) (hne : p ≠ c.toNat) :
    Char.ofNat p ≠ c := fun he => by
  have h2 := congrArg Char.toNat he
  rw [toNat_ofNat_small p hp] at h2
  exact hne h2

/-- The shape of the six characters after a lone high-surrogate escape:
the next output either does not look like a \uXXXX escape, or is the
\uXXXX of a value that is no low surrogate, so the scanner does not
merge. -/
theorem lookahead_shape (ps : List Nat) (rest : List Char)
    (hv : ∀ q ∈ ps, q ≤ 1114111)
    (hq : ∀ q qs, ps = q :: qs → ¬(56320 ≤ q ∧ q ≤ 57343)) :
    (∃ c0 t2, escapeStr ps ++ '"' :: rest = c0 :: t2 ∧ c0 ≠ '\\')
    ∨ (∃ e t2, escapeStr ps ++ '"' :: rest = '\\' :: e :: t2 ∧ e ≠ 'u')
    ∨ (∃ m2 t2, escapeStr ps ++ '"' :: rest = '\\' :: 'u' :: (hex4Chars m2 ++ t2)
        ∧ m2 < 65536 ∧ ¬(56320 ≤ m2 ∧ m2 ≤ 57343)) := by
  match ps with
  | [] =>
    left
    exact ⟨'"', rest, by rw [escapeStr_nil]; rfl, by decide⟩
  | q :: qs =>
    have hvq : q ≤ 1114111 := hv q (by simp)
    have hnl : ¬(56320 ≤ q ∧ q ≤ 57343) := hq q qs rfl
    rw [escapeStr_cons, List.append_assoc]
    by_cases h34 : q = 34
    · subst h34
      right; left
      exact ⟨'"', _, rfl, by decide⟩
    by_cases h92 : q = 92
    · subst h92
      right; left
      exact ⟨'\\', _, rfl, by decide⟩
    by_cases h8 : q = 8
    · subst h8
      right; left
      exact ⟨'b', _, rfl, by decide⟩
    by_cases h9 : q = 9
    · subst h9
      right; left
      exact ⟨'t', _, rfl, by decide⟩
    by_cases h10 : q = 10
    · subst h10
      right; left
      exact ⟨'n', _, rfl, by decide⟩
    by_cases h12 : q = 12
    · subst h12
      right; left
      exact ⟨'f', _, rfl, by decide⟩
    by_cases h13 : q = 13
    · subst h13
      right; left
      exact ⟨'r', _, rfl, by decide⟩
    by_cases hlit : 32 ≤ q ∧ q ≤ 126
    · left
      have he : escapePoint q = [Char.ofNat q] := by
        simp only [escapePoint]
        rw [if_neg h34, if_neg h92, if_neg h8, if_neg h9, if_neg h10, if_neg h12, if_neg h13,
          if_pos hlit]
      rw [he]
      exact ⟨Char.ofNat q, _, rfl, ofNat_ne_of_toNat_ne q '\\' (by omega) (by
        show q ≠ 92
        exact h92)⟩
    by_cases hbmp : q ≤ 65535
    · right; right
      have he : escapePoint q = '\\' :: 'u' :: hex4Chars q := by
        simp only [escapePoint]
        rw [if_neg h34, if_neg h92, if_neg h8, if_neg h9, if_neg h10, if_neg h12, if_neg h13,
          if_neg hlit, if_pos hbmp]
      rw [he]
      exact ⟨q, escapeStr qs ++ '"' :: rest, by simp, by omega, hnl⟩
    · right; right
      have he : escapePoint q
          = ('\\' :: 'u' :: hex4Chars (55296 + (q - 65536) / 1024))
            ++ ('\\' :: 'u' :: hex4Chars (56320 + (q - 65536) % 1024)) := by
        simp only [escapePoint]
        rw [if_neg h34, if_neg h92, if_neg h8, if_neg h9, if_neg h10, if_neg h12, if_neg h13,
          if_neg hlit, if_neg hbmp]
      rw [he]
      refine ⟨55296 + (q - 65536) / 1024,
        ('\\' :: 'u' :: hex4Chars (56320 + (q - 65536) % 1024))
          ++ (escapeStr qs ++ '"' :: rest), by simp, by omega, by omega⟩

theorem parseStrBody_surrogate_merge (f hi lo : Nat) (t : List Char)
    (hhi : 55296 ≤ hi ∧ hi ≤ 56319) (hlo : 56320 ≤ lo ∧ lo ≤ 57343) :
    parseStrBody (f + 1) ('\\' :: 'u' :: (hex4Chars hi ++ ('\\' :: 'u' :: (hex4Chars lo ++ t))))
      = match parseStrBody f t with
        | some (ps, r) => some ((65536 + (hi - 55296) * 1024 + (lo - 56320)) :: ps, r)
        | none => none := by
  rw [hex4Chars_expand]
  simp only [parseStrBody]
  rw [if_neg (by decide : ¬('\\' = '"')), if_true, if_true, hex4Val_hex4Chars hi (by omega)]
  split
  · rename_i heq
    exact Option.noConfusion heq
  rename_i h heq
  injection heq with hh
  subst hh
  rw [if_pos hhi, hex4Chars_expand]
  split
  · rename_i a2 b2 c2 d2 cs4 heq2
    injection heq2 with _ h2
    injection h2 with _ h3
    injection h3 with ha h4
    injection h4 with hb h5
    injection h5 with hc h6
    injection h6 with hd h7
    rw [← ha, ← hb, ← hc, ← hd, hex4Val_hex4Chars lo (by omega)]
    split
    · rename_i l heq3
      injection heq3 with hl
      subst hl
      rw [if_pos hlo, h7]
    · rename_i heq3
      exact Option.noConfusion heq3
  · rename_i hne
    exact absurd rfl (hne (hexDigitChar (lo / 4096 % 16)) (hexDigitChar (lo / 256 % 16))
      (hexDigitChar (lo / 16 % 16)) (hexDigitChar (lo % 16)) t)

/-- Parsing the escaped body of a string recovers its code points:
valid Python points with no adjacent high-low surrogate pair. -/
theorem parseStrBody_escape : ∀ (ps : List Nat) (fuel : Nat) (rest : List Char),
    (∀ p ∈ ps, p ≤ 1114111) → noSurrPair ps = true → ps.length < fuel →
    parseStrBody fuel (escapeStr ps ++ '"' :: rest) = some (ps, rest) := by
  intro ps
  induction ps with
  | nil =>
    intro fuel rest _ _ hf
    match fuel, hf with
    | f + 1, _ =>
      rw [escapeStr_nil]
      show parseStrBody (f + 1) ('"' :: rest) = some ([], rest)
      simp [parseStrBody]
  | cons p ps ih =>
    intro fuel rest hv hs hf
    match fuel, hf with
    | f + 1, hf =>
      have hvp : p ≤ 1114111 := hv p (by simp)
      have hvt : ∀ q ∈ ps, q ≤ 1114111 := fun q hq => hv q (by simp [hq])
      have hst : noSurrPair ps = true := noSurrPair_tail hs
      have hft : ps.length < f := by
        have := Nat.lt_of_succ_lt_succ hf
        simpa using this
      have ihps := ih f rest hvt hst hft
      rw [escapeStr_cons, List.append_assoc]
      by_cases h34 : p = 34
      · subst h34
        show parseStrBody (f + 1) ('\\' :: '"' :: (escapeStr ps ++ '"' :: rest)) = _
        rw [parseStrBody_simple f '"' 34 rfl (by decide), ihps]
      by_cases h92 : p = 92
      · subst h92
        show parseStrBody (f + 1) ('\\' :: '\\' :: (escapeStr ps ++ '"' :: rest)) = _
        rw [parseStrBody_simple f '\\' 92 rfl (by decide), ihps]
      by_cases h8 : p = 8
      · subst h8
        show parseStrBody (f + 1) ('\\' :: 'b' :: (escapeStr ps ++ '"' :: rest)) = _
        rw [parseStrBody_simple f 'b' 8 rfl (by decide), ihps]
      by_cases h9 : p = 9
      · subst h9
        show parseStrBody (f + 1) ('\\' :: 't' :: (escapeStr ps ++ '"' :: rest)) = _
        rw [parseStrBody_simple f 't' 9 rfl (by decide), ihps]
      by_cases h10 : p = 10
      · subst h10
        show parseStrBody (f + 1) ('\\' :: 'n' :: (escapeStr ps ++ '"' :: rest)) = _
        rw [parseStrBody_simple f 'n' 10 rfl (by decide), ihps]
      by_cases h12 : p = 12
      · subst h12
        show parseStrBody (f + 1) ('\\' :: 'f' :: (escapeStr ps ++ '"' :: rest)) = _
        rw [parseStrBody_simple f 'f' 12 rfl (by decide), ihps]
      by_cases h13 : p = 13
      · subst h13
        show parseStrBody (f + 1) ('\\' :: 'r' :: (escapeStr ps ++ '"' :: rest)) = _
        rw [parseStrBody_simple f 'r' 13 rfl (by decide), ihps]
      by_cases hlit : 32 ≤ p ∧ p ≤ 126
      · have he : escapePoint p = [Char.ofNat p] := by
          simp only [escapePoint]
          rw [if_neg h34, if_neg h92, if_neg h8, if_neg h9, if_neg h10, if_neg h12, if_neg h13,
            if_pos hlit]
        rw [he]
        show parseStrBody (f + 1) (Char.ofNat p :: (escapeStr ps ++ '"' :: rest)) = _
        rw [parseStrBody_literal f (Char.ofNat p)
          (ofNat_ne_of_toNat_ne p '"' (by omega) (by show p ≠ 34; exact h34))
          (ofNat_ne_of_toNat_ne p '\\' (by omega) (by show p ≠ 92; exact h92))
          (by rw [toNat_ofNat_small p (by omega)]; omega), ihps, toNat_ofNat_small p (by omega)]
      by_cases hbmp : p ≤ 65535
      · have he : escapePoint p = '\\' :: 'u' :: hex4Chars p := by
          simp only [escapePoint]
          rw [if_neg h34, if_neg h92, if_neg h8, if_neg h9, if_neg h10, if_neg h12, if_neg h13,
            if_neg hlit, if_pos hbmp]
        rw [he]
        have harr : ('\\' :: 'u' :: hex4Chars p) ++ (escapeStr ps ++ '"' :: rest)
            = '\\' :: 'u' :: (hex4Chars p ++ (escapeStr ps ++ '"' :: rest)) := by simp
        rw [harr]
        by_cases hhi : 55296 ≤ p ∧ p ≤ 56319
        · have hsh := lookahead_shape ps rest hvt
            (fun q qs heq => by
              subst heq
              exact noSurrPair_head_pair hs hhi)
          rw [parseStrBody_hex_high_nomerge f p (escapeStr ps ++ '"' :: rest) hhi hsh, ihps]
        · rw [parseStrBody_hex_notHigh f p (escapeStr ps ++ '"' :: rest) (by omega) hhi, ihps]
      · have he : escapePoint p
            = ('\\' :: 'u' :: hex4Chars (55296 + (p - 65536) / 1024))
              ++ ('\\' :: 'u' :: hex4Chars (56320 + (p - 65536) % 1024)) := by
          simp only [escapePoint]
          rw [if_neg h34, if_neg h92, if_neg h8, if_neg h9, if_neg h10, if_neg h12, if_neg h13,
            if_neg hlit, if_neg hbmp]
        rw [he]
        have harr : (('\\' :: 'u' :: hex4Chars (55296 + (p - 65536) / 1024))
              ++ ('\\' :: 'u' :: hex4Chars (56320 + (p - 65536) % 1024)))
              ++ (escapeStr ps ++ '"' :: rest)
            = '\\' :: 'u' :: (hex4Chars (55296 + (p - 65536) / 1024)
              ++ ('\\' :: 'u' :: (hex4Chars (56320 + (p - 65536) % 1024)
                ++ (escapeStr ps ++ '"' :: rest)))) := by simp
        rw [harr, parseStrBody_surrogate_merge f (55296 + (p - 65536) / 1024)
          (56320 + (p - 65536) % 1024) (escapeStr ps ++ '"' :: rest)
          (by omega) (by omega), ihps]
        have hval : 65536 + (55296 + (p - 65536) / 1024 - 55296) * 1024
            + (56320 + (p - 65536) % 1024 - 56320) = p := by omega
        rw [hval]

/-! ## Codec, part 3: the value parser inverts dumps -/

theorem skipWs_cons_not {c : Char} (h : isWsChar c = false) (t : List Char) :
    skipWs (c :: t) = c :: t := by
  simp [skipWs, h]

theorem digit_ne {c : Char} (h : isDigitChar c = true) (d : Char)
    (hd : ¬(48 ≤ d.toNat ∧ d.toNat ≤ 57)) : c ≠ d := fun he => by
  subst he
  exact hd (isDigitChar_toNat h)

theorem digit_not_ws {c : Char} (h : isDigitChar c = true) : isWsChar c = false := by
  obtain ⟨h1, h2⟩ := isDigitChar_toNat h
  simp only [isWsChar, Bool.or_eq_false_iff, decide_eq_false_iff_not]
  refine ⟨⟨⟨?_, ?_⟩, ?_⟩, ?_⟩ <;> intro he <;> subst he <;> revert h1 h2 <;> decide

theorem dumps_head (e : Json) : ∃ c t, dumps e = c :: t ∧ isWsChar c = false ∧ c ≠ ']' := by
  cases e with
  | null => exact ⟨'n', _, rfl, by decide, by decide⟩
  | bool b =>
    cases b with
    | true => exact ⟨'t', _, rfl, by decide, by decide⟩
    | false => exact ⟨'f', _, rfl, by decide, by decide⟩
  | num i =>
    by_cases hi : i < 0
    · refine ⟨'-', natChars i.natAbs, ?_, by decide, by decide⟩
      show intChars i = _
      rw [intChars, if_pos hi]
    · obtain ⟨c, t, hct, hd⟩ := natChars_head i.natAbs
      refine ⟨c, t, ?_, digit_not_ws hd, digit_ne hd ']' (by decide)⟩
      show intChars i = _
      rw [intChars, if_neg hi, hct]
  | str s => exact ⟨'"', _, rfl, by decide, by decide⟩
  | arr items =>
    cases items with
    | nil => exact ⟨'[', _, rfl, by decide, by decide⟩
    | cons x xs => exact ⟨'[', _, rfl, by decide, by decide⟩
  | obj fields =>
    match fields with
    | [] => exact ⟨'\x7b', _, rfl, by decide, by decide⟩
    | (k, v) :: kvs => exact ⟨'\x7b', _, rfl, by decide, by decide⟩

theorem skipWs_dumps (e : Json) (x : List Char) : skipWs (dumps e ++ x) = dumps e ++ x := by
  obtain ⟨c, t, hct, hws, _⟩ := dumps_head e
  rw [hct]
  show skipWs (c :: (t ++ x)) = _
  rw [skipWs_cons_not hws]
  rfl

theorem validPoints_mem {s : List Nat} (h : validPoints s = true) : ∀ p ∈ s, p ≤ 1114111 := by
  intro p hp
  have := List.all_eq_true.mp h p hp
  simpa using this

theorem escapePoint_ne_nil (p : Nat) : escapePoint p ≠ [] := by
  simp only [escapePoint]
  split_ifs <;> simp

theorem escapeStr_length (ps : List Nat) : ps.length ≤ (escapeStr ps).length := by
  induction ps with
  | nil => simp [escapeStr_nil]
  | cons p ps ih =>
    rw [escapeStr_cons, List.length_append, List.length_cons]
    have h1 : 1 ≤ (escapePoint p).length := by
      match h : escapePoint p with
      | [] => exact absurd h (escapePoint_ne_nil p)
      | c :: t => simp
    omega

theorem parseVal_cons_ws (f : Nat) (c : Char) (hc : isWsChar c = true) (x : List Char) :
    parseVal (f + 1) (c :: x) = parseVal (f + 1) x := by
  simp only [parseVal]
  rw [show skipWs (c :: x) = skipWs x from by simp [skipWs, hc]]

theorem parseMembers_cons_ws (f : Nat) (c : Char) (hc : isWsChar c = true) (x : List Char) :
    parseMembers (f + 1) (c :: x) = parseMembers (f + 1) x := by
  simp only [parseMembers]
  rw [show skipWs (c :: x) = skipWs x from by simp [skipWs, hc]]

theorem parseVal_pos_ws (f : Nat) (hf : 0 < f) (c : Char) (hc : isWsChar c = true)
    (x : List Char) : parseVal f (c :: x) = parseVal f x := by
  match f, hf with
  | f + 1, _ => exact parseVal_cons_ws f c hc x

theorem parseMembers_pos_ws (f : Nat) (hf : 0 < f) (c : Char) (hc : isWsChar c = true)
    (x : List Char) : parseMembers f (c :: x) = parseMembers f x := by
  match f, hf with
  | f + 1, _ => exact parseMembers_cons_ws f c hc x

theorem parseVal_number_dispatch (f : Nat) (c : Char) (t : List Char)
    (hws : isWsChar c = false) (hn : c ≠ 'n') (ht : c ≠ 't') (hf : c ≠ 'f')
    (hq : c ≠ '"') (hb : c ≠ '[') (ho : c ≠ '\x7b')
    (hg : c = '-' ∨ isDigitChar c = true) :
    parseVal (f + 1) (c :: t)
      = match parseNumber (c :: t) with
        | some (n, r2) => some (.num n, r2)
        | none => none := by
  simp only [parseVal]
  rw [skipWs_cons_not hws]
  split
  · rename_i heq
    injection heq with h1 _
    exact absurd h1 hn
  · rename_i heq
    injection heq with h1 _
    exact absurd h1 ht
  · rename_i heq
    injection heq with h1 _
    exact absurd h1 hf
  · rename_i heq
    injection heq with h1 _
    exact absurd h1 hq
  · rename_i heq
    injection heq with h1 _
    exact absurd h1 hb
  · rename_i heq
    injection heq with h1 _
    exact absurd h1 ho
  · rename_i c2 r2 heq
    injection heq with h1 h2
    subst h1
    subst h2
    rw [if_pos hg]
  · rename_i heq
    exact absurd heq (by simp)

theorem upsert_absent (acc : List (List Nat × Json)) (k : List Nat) (v : Json)
    (h : k ∉ acc.map Prod.fst) : upsert acc k v = acc ++ [(k, v)] := by
  induction acc with
  | nil => rfl
  | cons kv0 rest ih =>
    obtain ⟨k0, v0⟩ := kv0
    have hk0 : k0 ≠ k := fun he => h (by simp [he])
    simp only [upsert]
    rw [if_neg hk0, ih fun hm => h (by simp [hm])]
    simp

theorem distinctKeys_cons {k : List Nat} {ks : List (List Nat)}
    (h : distinctKeys (k :: ks) = true) : k ∉ ks ∧ distinctKeys ks = true := by
  by_cases hm : k ∈ ks
  · rw [distinctKeys, if_pos hm] at h
    exact absurd h (by decide)
  · rw [distinctKeys, if_neg hm] at h
    exact ⟨hm, h⟩

theorem foldl_upsert_distinct : ∀ (ms acc : List (List Nat × Json)),
    (∀ k ∈ acc.map Prod.fst, k ∉ ms.map Prod.fst) →
    distinctKeys (ms.map Prod.fst) = true →
    ms.foldl (fun acc kv => upsert acc kv.1 kv.2) acc = acc ++ ms := by
  intro ms
  induction ms with
  | nil =>
    intro acc _ _
    simp
  | cons kv rest ih =>
    intro acc hdisj hd
    obtain ⟨k, v⟩ := kv
    rw [List.map_cons] at hd
    obtain ⟨hknotrest, hd2⟩ := distinctKeys_cons hd
    have hknotacc : k ∉ acc.map Prod.fst := fun hm => hdisj k hm (by simp)
    simp only [List.foldl_cons]
    rw [show upsert acc (k, v).1 (k, v).2 = acc ++ [(k, v)] from upsert_absent acc k v hknotacc]
    rw [ih (acc ++ [(k, v)]) ?_ hd2]
    · simp
    · intro k2 hk2 hk2rest
      rw [List.map_append] at hk2
      rcases List.mem_append.mp hk2 with h1 | h2
      · exact hdisj k2 h1 (by simp [hk2rest])
      · simp only [List.map_cons, List.map_nil, List.mem_singleton] at h2
        subst h2
        exact hknotrest hk2rest

theorem dictOfPairs_distinct (ms : List (List Nat × Json))
    (hd : distinctKeys (ms.map Prod.fst) = true) : dictOfPairs ms = ms := by
  have h := foldl_upsert_distinct ms [] (by simp) hd
  simpa [dictOfPairs] using h

theorem numBoundary_arrRest (xs : List Json) (rest : List Char) :
    numBoundary (dumpsArrRest xs ++ rest) = true := by
  cases xs with
  | nil => rfl
  | cons y ys => rfl

theorem numBoundary_objRest (kvs : List (List Nat × Json)) (rest : List Char) :
    numBoundary (dumpsObjRest kvs ++ rest) = true := by
  cases kvs with
  | nil => rfl
  | cons kv kvs2 => rfl

theorem dumpsArrRest_len (xs : List Json) : 1 ≤ (dumpsArrRest xs).length := by
  cases xs with
  | nil => simp [dumpsArrRest]
  | cons y ys => simp [dumpsArrRest]

theorem dumpsObjRest_len (kvs : List (List Nat × Json)) : 1 ≤ (dumpsObjRest kvs).length := by
  cases kvs with
  | nil => simp [dumpsObjRest]
  | cons kv kvs2 => simp [dumpsObjRest]

theorem dumps_len_pos (e : Json) : 1 ≤ (dumps e).length := by
  obtain ⟨c, t, hct, _, _⟩ := dumps_head e
  rw [hct]
  simp

theorem parseVal_str_step (f : Nat) (r : List Char) :
    parseVal (f + 1) ('"' :: r)
      = match parseStrBody (r.length + 1) r with
        | some (s, r2) => some (Json.str s, r2)
        | none => none := rfl

theorem parseVal_arr_step (f : Nat) (r : List Char) :
    parseVal (f + 1) ('[' :: r)
      = (match skipWs r with
         | ']' :: r2 => some (Json.arr [], r2)
         | r2 =>
           match parseItems f r2 with
           | some (items, r3) => some (Json.arr items, r3)
           | none => none) := rfl

theorem parseVal_obj_step (f : Nat) (r : List Char) :
    parseVal (f + 1) ('\x7b' :: r)
      = (match skipWs r with
         | '\x7d' :: r2 => some (Json.obj [], r2)
         | r2 =>
           match parseMembers f r2 with
           | some (ms, r3) => some (Json.obj (dictOfPairs ms), r3)
           | none => none) := rfl

theorem parseItems_step (f : Nat) (cs : List Char) :
    parseItems (f + 1) cs
      = (match parseVal f cs with
         | none => none
         | some (v, r) =>
           match skipWs r with
           | ']' :: r2 => some ([v], r2)
           | ',' :: r2 =>
             (match parseItems f (skipWs r2) with
              | some (vs, r3) => some (v :: vs, r3)
              | none => none)
           | _ => none) := rfl

theorem parseMembers_step (f : Nat) (cs : List Char) :
    parseMembers (f + 1) cs
      = (match skipWs cs with
         | '"' :: r =>
           (match parseStrBody (r.length + 1) r with
            | none => none
            | some (k, r1) =>
              match skipWs r1 with
              | ':' :: r2 =>
                (match parseVal f r2 with
                 | none => none
                 | some (v, r3) =>
                   match skipWs r3 with
                   | '\x7d' :: r4 => some ([(k, v)], r4)
                   | ',' :: r4 =>
                     (match parseMembers f r4 with
                      | some (ms, r5) => some ((k, v) :: ms, r5)
                      | none => none)
                   | _ => none)
              | _ => none)
         | _ => none) := rfl

mutual

theorem rt_val : ∀ (e : Json) (fuel : Nat) (rest : List Char),
    serializable e = true → surrSafe e = true →
    (dumps e).length < fuel → numBoundary rest = true →
    parseVal fuel (dumps e ++ rest) = some (e, rest)
  | .null, fuel, rest, _, _, hf, _ => by
    match fuel, hf with
    | f + 1, _ => rfl
  | .bool true, fuel, rest, _, _, hf, _ => by
    match fuel, hf with
    | f + 1, _ => rfl
  | .bool false, fuel, rest, _, _, hf, _ => by
    match fuel, hf with
    | f + 1, _ => rfl
  | .num i, fuel, rest, _, _, hf, hb => by
    match fuel, hf with
    | f + 1, hf =>
      by_cases hi : i < 0
      · have hd : dumps (Json.num i) ++ rest = '-' :: (natChars i.natAbs ++ rest) := by
          show intChars i ++ rest = _
          rw [intChars, if_pos hi]
          rfl
        rw [hd, parseVal_number_dispatch f '-' (natChars i.natAbs ++ rest) (by decide)
          (by decide) (by decide) (by decide) (by decide) (by decide) (by decide) (Or.inl rfl),
          ← hd, show dumps (Json.num i) = intChars i from rfl, parseNumber_intChars i rest hb]
      · obtain ⟨c, t, hct, hdg⟩ := natChars_head i.natAbs
        have hd : dumps (Json.num i) ++ rest = c :: (t ++ rest) := by
          show intChars i ++ rest = _
          rw [intChars, if_neg hi, hct]
          rfl
        rw [hd, parseVal_number_dispatch f c (t ++ rest) (digit_not_ws hdg)
          (digit_ne hdg 'n' (by decide)) (digit_ne hdg 't' (by decide))
          (digit_ne hdg 'f' (by decide)) (digit_ne hdg '"' (by decide))
          (digit_ne hdg '[' (by decide)) (digit_ne hdg '\x7b' (by decide)) (Or.inr hdg),
          ← hd, show dumps (Json.num i) = intChars i from rfl, parseNumber_intChars i rest hb]
  | .str s, fuel, rest, hs, hp, hf, _ => by
    match fuel, hf with
    | f + 1, hf =>
      have hvp : ∀ p ∈ s, p ≤ 1114111 := validPoints_mem (by simpa [serializable] using hs)
      have hnp : noSurrPair s = true := by simpa [surrSafe] using hp
      have hd : dumps (Json.str s) ++ rest = '"' :: (escapeStr s ++ '"' :: rest) := by
        show strChars s ++ rest = _
        simp [strChars]
      rw [hd, parseVal_str_step, parseStrBody_escape s _ rest hvp hnp (by
        have h1 := escapeStr_length s
        simp only [List.length_append, List.length_cons]
        omega)]
  | .arr [], fuel, rest, _, _, hf, _ => by
    match fuel, hf with
    | f + 1, _ => rfl
  | .arr (x :: xs), fuel, rest, hs, hp, hf, hb => by
    match fuel, hf with
    | f + 1, hf =>
      have hsx : serializableItems (x :: xs) = true := hs
      have hpx : surrSafeItems (x :: xs) = true := hp
      have hd : dumps (Json.arr (x :: xs)) ++ rest
          = '[' :: ((dumps x ++ dumpsArrRest xs) ++ rest) := rfl
      rw [hd, parseVal_arr_step, List.append_assoc, skipWs_dumps x (dumpsArrRest xs ++ rest)]
      obtain ⟨c, t, hct, _, hcrb⟩ := dumps_head x
      have hlen : (dumps x ++ dumpsArrRest xs).length < f := by
        have h2 : (dumps (Json.arr (x :: xs))).length
            = 1 + (dumps x ++ dumpsArrRest xs).length := by
          rw [show dumps (Json.arr (x :: xs)) = '[' :: (dumps x ++ dumpsArrRest xs) from rfl]
          simp only [List.length_cons]
          omega
        omega
      rw [hct]
      split
      · rename_i heq
        rw [List.cons_append] at heq
        injection heq with h1 _
        exact absurd h1 hcrb
      · rw [← hct, rt_items x xs f rest hsx hpx hlen hb]
  | .obj [], fuel, rest, _, _, hf, _ => by
    match fuel, hf with
    | f + 1, _ => rfl
  | .obj ((k, v) :: kvs), fuel, rest, hs, hp, hf, hb => by
    match fuel, hf with
    | f + 1, hf =>
      have hsplit := Bool.and_eq_true_iff.mp hs
      have hdk : distinctKeys (((k, v) :: kvs).map Prod.fst) = true := hsplit.1
      have hsf : serializableFields ((k, v) :: kvs) = true := hsplit.2
      have hpf : surrSafeFields ((k, v) :: kvs) = true := hp
      have hd : dumps (Json.obj ((k, v) :: kvs)) ++ rest
          = '\x7b' :: ((strChars k ++ ':' :: ' ' :: (dumps v ++ dumpsObjRest kvs)) ++ rest) := rfl
      have hlen : (strChars k ++ ':' :: ' ' :: (dumps v ++ dumpsObjRest kvs)).length < f := by
        have h2 : (dumps (Json.obj ((k, v) :: kvs))).length
            = 1 + (strChars k ++ ':' :: ' ' :: (dumps v ++ dumpsObjRest kvs)).length := by
          rw [show dumps (Json.obj ((k, v) :: kvs))
            = '\x7b' :: (strChars k ++ ':' :: ' ' :: (dumps v ++ dumpsObjRest kvs)) from rfl]
          simp only [List.length_cons]
          omega
        omega
      have hsk : (strChars k ++ ':' :: ' ' :: (dumps v ++ dumpsObjRest kvs)) ++ rest
          = '"' :: ((escapeStr k ++ ['"'])
            ++ (':' :: ' ' :: (dumps v ++ dumpsObjRest kvs) ++ rest)) := by
        simp [strChars]
      rw [hd, parseVal_obj_step, hsk, skipWs_cons_not (by decide)]
      split
      · rename_i heq
        injection heq with h1 _
        exact absurd h1 (by decide)
      · rw [← hsk, rt_members k v kvs f rest hsf hpf hlen hb]
        show some (Json.obj (dictOfPairs ((k, v) :: kvs)), rest)
          = some (Json.obj ((k, v) :: kvs), rest)
        rw [dictOfPairs_distinct ((k, v) :: kvs) hdk]
  termination_by e _ _ _ _ _ _ => sizeOf e
  decreasing_by
    all_goals simp_wf
    all_goals omega

theorem rt_items : ∀ (x : Json) (xs : List Json) (fuel : Nat) (rest : List Char),
    serializableItems (x :: xs) = true → surrSafeItems (x :: xs) = true →
    (dumps x ++ dumpsArrRest xs).length < fuel → numBoundary rest = true →
    parseItems fuel (dumps x ++ (dumpsArrRest xs ++ rest)) = some (x :: xs, rest)
  | x, xs, fuel, rest, hs, hp, hf, hb => by
    match fuel, hf with
    | f + 1, hf =>
      have hsx := Bool.and_eq_true_iff.mp hs
      have hpx := Bool.and_eq_true_iff.mp hp
      have hlx : (dumps x).length < f := by
        have h1 := dumpsArrRest_len xs
        simp only [List.length_append] at hf
        omega
      rw [parseItems_step,
        rt_val x f (dumpsArrRest xs ++ rest) hsx.1 hpx.1 hlx (numBoundary_arrRest xs rest)]
      match xs, hsx, hpx, hf with
      | [], _, _, _ =>
        show (match skipWs (']' :: rest) with
          | ']' :: r2 => some ([x], r2)
          | ',' :: r2 =>
            (match parseItems f (skipWs r2) with
             | some (vs, r3) => some (x :: vs, r3)
             | none => none)
          | _ => none) = some ([x], rest)
        rw [skipWs_cons_not (by decide)]
        rfl
      | y :: ys, hsx, hpx, hf =>
        have hsy : serializableItems (y :: ys) = true := hsx.2
        have hpy : surrSafeItems (y :: ys) = true := hpx.2
        have hly : (dumps y ++ dumpsArrRest ys).length < f := by
          simp only [List.length_append] at hf ⊢
          have h1 := dumps_len_pos x
          have h3 : (dumpsArrRest (y :: ys)).length
              = 2 + ((dumps y).length + (dumpsArrRest ys).length) := by
            rw [show dumpsArrRest (y :: ys) = ',' :: ' ' :: (dumps y ++ dumpsArrRest ys) from rfl]
            simp only [List.length_cons, List.length_append]
            omega
          omega
        have hd2 : dumpsArrRest (y :: ys) ++ rest
            = ',' :: ' ' :: ((dumps y ++ dumpsArrRest ys) ++ rest) := rfl
        rw [hd2]
        show (match (',' :: ' ' :: ((dumps y ++ dumpsArrRest ys) ++ rest) : List Char) with
          | ']' :: r2 => some ([x], r2)
          | ',' :: r2 =>
            (match parseItems f (skipWs r2) with
             | some (vs, r3) => some (x :: vs, r3)
             | none => none)
          | _ => none) = some (x :: y :: ys, rest)
        have hsw : skipWs (' ' :: ((dumps y ++ dumpsArrRest ys) ++ rest))
            = dumps y ++ (dumpsArrRest ys ++ rest) := by
          rw [show skipWs (' ' :: ((dumps y ++ dumpsArrRest ys) ++ rest))
            = skipWs ((dumps y ++ dumpsArrRest ys) ++ rest) from by simp [skipWs, isWsChar],
            List.append_assoc, skipWs_dumps]
        show (match parseItems f (skipWs (' ' :: ((dumps y ++ dumpsArrRest ys) ++ rest))) with
          | some (vs, r3) => some (x :: vs, r3)
          | none => none) = some (x :: y :: ys, rest)
        rw [hsw, rt_items y ys f rest hsy hpy hly hb]
  termination_by x xs _ _ _ _ _ _ => sizeOf x + sizeOf xs + 1
  decreasing_by
    all_goals simp_wf
    all_goals omega

theorem rt_members : ∀ (k : List Nat) (v : Json) (kvs : List (List Nat × Json))
    (fuel : Nat) (rest : List Char),
    serializableFields ((k, v) :: kvs) = true → surrSafeFields ((k, v) :: kvs) = true →
    (strChars k ++ ':' :: ' ' :: (dumps v ++ dumpsObjRest kvs)).length < fuel →
    numBoundary rest = true →
    parseMembers fuel ((strChars k ++ ':' :: ' ' :: (dumps v ++ dumpsObjRest kvs)) ++ rest)
      = some ((k, v) :: kvs, rest)
  | k, v, kvs, fuel, rest, hs, hp, hf, hb => by
    match fuel, hf with
    | f + 1, hf =>
      have hsk := Bool.and_eq_true_iff.mp hs
      have hsv := Bool.and_eq_true_iff.mp hsk.1
      have hpk := Bool.and_eq_true_iff.mp hp
      have hpv := Bool.and_eq_true_iff.mp hpk.1
      have hkv : ∀ p ∈ k, p ≤ 1114111 := validPoints_mem hsv.1
      have hknp : noSurrPair k = true := hpv.1
      have harr : (strChars k ++ ':' :: ' ' :: (dumps v ++ dumpsObjRest kvs)) ++ rest
          = '"' :: (escapeStr k
            ++ '"' :: (':' :: ' ' :: ((dumps v ++ dumpsObjRest kvs) ++ rest))) := by
        simp [strChars]
      rw [parseMembers_step, harr, skipWs_cons_not (by decide)]
      split
      · rename_i r heq
        injection heq with _ h2
        subst h2
        rw [parseStrBody_escape k _ (':' :: ' ' :: ((dumps v ++ dumpsObjRest kvs) ++ rest))
          hkv hknp (by
            have h1 := escapeStr_length k
            simp only [List.length_append, List.length_cons]
            omega)]
        split
        · rename_i heq2
          exact Option.noConfusion heq2
        rename_i k1 r1 heq2
        injection heq2 with heq3
        injection heq3 with hk1 hr1
        subst hk1
        subst hr1
        rw [skipWs_cons_not (by decide)]
        split
        · rename_i r2 heq4
          injection heq4 with _ h5
          subst h5
          have hlv : (dumps v).length < f := by
            have h1 := dumpsObjRest_len kvs
            have h2 : (strChars k).length = (escapeStr k).length + 2 := by simp [strChars]
            simp only [List.length_append, List.length_cons] at hf
            omega
          rw [show (' ' :: ((dumps v ++ dumpsObjRest kvs) ++ rest) : List Char)
              = ' ' :: (dumps v ++ (dumpsObjRest kvs ++ rest)) from by rw [List.append_assoc],
            parseVal_pos_ws f (by omega) ' ' (by decide) (dumps v ++ (dumpsObjRest kvs ++ rest)),
            rt_val v f (dumpsObjRest kvs ++ rest) hsv.2 hpv.2 hlv (numBoundary_objRest kvs rest)]
          split
          · rename_i heq5
            exact Option.noConfusion heq5
          rename_i v1 r3 heq5
          injection heq5 with heq6
          injection heq6 with hv1 hr3
          subst hv1
          subst hr3
          have hfm : (strChars k ++ ':' :: ' ' :: (dumps v ++ dumpsObjRest kvs)).length
              < f + 1 := hf
          match kvs, hsk, hpk, hfm with
          | [], _, _, _ =>
            rw [show dumpsObjRest ([] : List (List Nat × Json)) ++ rest
                = '\x7d' :: rest from rfl, skipWs_cons_not (by decide)]
            rfl
          | (k2, v2) :: kvs2, hsk, hpk, hfm =>
            have hs2 : serializableFields ((k2, v2) :: kvs2) = true := hsk.2
            have hp2 : surrSafeFields ((k2, v2) :: kvs2) = true := hpk.2
            have hd2 : dumpsObjRest ((k2, v2) :: kvs2) ++ rest
                = ',' :: ' ' :: ((strChars k2 ++ ':' :: ' ' :: (dumps v2 ++ dumpsObjRest kvs2))
                  ++ rest) := rfl
            have hl2 : (strChars k2 ++ ':' :: ' ' :: (dumps v2 ++ dumpsObjRest kvs2)).length
                < f := by
              have h4 := dumps_len_pos v
              have h5 : (dumpsObjRest ((k2, v2) :: kvs2)).length
                  = 2 + (strChars k2 ++ ':' :: ' '
                    :: (dumps v2 ++ dumpsObjRest kvs2)).length := by
                rw [show dumpsObjRest ((k2, v2) :: kvs2)
                  = ',' :: ' ' :: (strChars k2 ++ ':' :: ' '
                    :: (dumps v2 ++ dumpsObjRest kvs2)) from rfl]
                simp only [List.length_cons]
                omega
              simp only [List.length_append, List.length_cons] at hfm
              omega
            rw [hd2]
            show (match parseMembers f (' ' :: ((strChars k2
                ++ ':' :: ' ' :: (dumps v2 ++ dumpsObjRest kvs2)) ++ rest)) with
              | some (ms, r5) => some ((k, v) :: ms, r5)
              | none => none) = some ((k, v) :: (k2, v2) :: kvs2, rest)
            rw [parseMembers_pos_ws f (by omega) ' ' (by decide) ((strChars k2
                ++ ':' :: ' ' :: (dumps v2 ++ dumpsObjRest kvs2)) ++ rest),
              rt_members k2 v2 kvs2 f rest hs2 hp2 hl2 hb]
        · rename_i hne
          exact absurd rfl (hne (' ' :: ((dumps v ++ dumpsObjRest kvs) ++ rest)))
      · rename_i hne
        exact absurd rfl (hne (escapeStr k
          ++ '"' :: (':' :: ' ' :: ((dumps v ++ dumpsObjRest kvs) ++ rest))))
  termination_by _ v kvs _ _ _ _ _ _ => sizeOf v + sizeOf kvs + 1
  decreasing_by
    all_goals simp_wf
    all_goals omega

end

/-- json.loads inverts json.dumps on serializable, surrogate-pair-free
values: the parser consumes the whole dumped text and nothing remains. -/
theorem json_loads_dumps (e : Json) (hs : serializable e = true) (hp : surrSafe e = true) :
    json_loads (dumps e) = some e := by
  have h1 : parseVal (2 * (dumps e).length + 2) (dumps e ++ []) = some (e, []) :=
    rt_val e (2 * (dumps e).length + 2) [] hs hp (by
      have := dumps_len_pos e
      omega) rfl
  rw [List.append_nil] at h1
  simp only [json_loads, h1]
  rfl

theorem utf8EncodeChar_len_pos (c : Char) : 1 ≤ (utf8EncodeChar c).length := by
  simp only [utf8EncodeChar]
  split
  · simp
  split
  · simp
  split <;> simp

theorem char_valid_bounds (c : Char) :
    c.toNat < 55296 ∨ (57343 < c.toNat ∧ c.toNat < 1114112) := c.valid

theorem utf8EncodeChar_lt (c : Char) : ∀ b ∈ utf8EncodeChar c, b < 256 := by
  have hv := char_valid_bounds c
  have hb : c.toNat < 1114112 := by rcases hv with h | ⟨_, h⟩ <;> omega
  intro b hmem
  simp only [utf8EncodeChar] at hmem
  split at hmem
  · simp only [List.mem_singleton] at hmem
    omega
  split at hmem
  · simp only [List.mem_cons, List.not_mem_nil, or_false] at hmem
    rcases hmem with h | h <;> omega
  split at hmem
  · simp only [List.mem_cons, List.not_mem_nil, or_false] at hmem
    rcases hmem with h | h | h <;> omega
  · simp only [List.mem_cons, List.not_mem_nil, or_false] at hmem
    rcases hmem with h | h | h | h <;> omega

theorem utf8Encode_lt (s : List Char) : ∀ b ∈ utf8Encode s, b < 256 := by
  induction s with
  | nil =>
    intro b hmem
    simp [utf8Encode] at hmem
  | cons c cs ih =>
    intro b hmem
    have hcc : utf8Encode (c :: cs) = utf8EncodeChar c ++ utf8Encode cs := by
      simp [utf8Encode]
    rw [hcc, List.mem_append] at hmem
    rcases hmem with h | h
    · exact utf8EncodeChar_lt c b h
    · exact ih b h

theorem utf8DecodeAux_one (fuel n : Nat) (h : n < 128) (bs : List Nat) :
    utf8DecodeAux (fuel + 1) (n :: bs)
      = match utf8DecodeAux fuel bs with
        | some cs => some (Char.ofNat n :: cs)
        | none => none := by
  simp only [utf8DecodeAux]
  rw [if_pos h]

theorem utf8DecodeAux_two (fuel n : Nat) (h1 : 128 ≤ n) (h2 : n < 2048) (bs : List Nat) :
    utf8DecodeAux (fuel + 1) ((192 + n / 64) :: (128 + n % 64) :: bs)
      = match utf8DecodeAux fuel bs with
        | some cs => some (Char.ofNat n :: cs)
        | none => none := by
  simp only [utf8DecodeAux]
  rw [if_neg (by omega), if_neg (by omega), if_pos (by omega), if_pos (by omega),
    show 192 + n / 64 - 192 = n / 64 from by omega, show 128 + n % 64 - 128 = n % 64 from by
      omega, show n / 64 * 64 + n % 64 = n from by omega]

theorem utf8DecodeAux_three (fuel n : Nat) (h1 : 2048 ≤ n) (h2 : n < 65536)
    (hsur : ¬(55296 ≤ n ∧ n ≤ 57343)) (bs : List Nat) :
    utf8DecodeAux (fuel + 1) ((224 + n / 4096) :: (128 + n / 64 % 64) :: (128 + n % 64) :: bs)
      = match utf8DecodeAux fuel bs with
        | some cs => some (Char.ofNat n :: cs)
        | none => none := by
  simp only [utf8DecodeAux]
  rw [if_neg (by omega), if_neg (by omega), if_neg (by omega), if_pos (by omega),
    if_pos (by omega),
    show (224 + n / 4096 - 224) * 4096 + (128 + n / 64 % 64 - 128) * 64 + (128 + n % 64 - 128)
      = n from by omega,
    if_pos (And.intro (by omega) hsur)]

theorem utf8DecodeAux_four (fuel n : Nat) (h1 : 65536 ≤ n) (h2 : n ≤ 1114111) (bs : List Nat) :
    utf8DecodeAux (fuel + 1)
      ((240 + n / 262144) :: (128 + n / 4096 % 64) :: (128 + n / 64 % 64) :: (128 + n % 64) :: bs)
      = match utf8DecodeAux fuel bs with
        | some cs => some (Char.ofNat n :: cs)
        | none => none := by
  simp only [utf8DecodeAux]
  rw [if_neg (by omega), if_neg (by omega), if_neg (by omega), if_neg (by omega),
    if_pos (by omega), if_pos (by omega),
    show (240 + n / 262144 - 240) * 262144 + (128 + n / 4096 % 64 - 128) * 4096
      + (128 + n / 64 % 64 - 128) * 64 + (128 + n % 64 - 128) = n from by omega,
    if_pos (And.intro h1 h2)]

theorem utf8DecodeAux_enc (s : List Char) : ∀ fuel : Nat, (utf8Encode s).length < fuel →
    utf8DecodeAux fuel (utf8Encode s) = some s := by
  induction s with
  | nil =>
    intro fuel hlen
    match fuel, hlen with
    | f + 1, _ => rfl
  | cons c cs ih =>
    intro fuel hlen
    match fuel, hlen with
    | f + 1, hlen =>
      have hcc : utf8Encode (c :: cs) = utf8EncodeChar c ++ utf8Encode cs := by
        simp [utf8Encode]
      have hrec : (utf8Encode cs).length < f := by
        rw [hcc] at hlen
        have hp := utf8EncodeChar_len_pos c
        simp only [List.length_append] at hlen
        omega
      have hv := char_valid_bounds c
      rw [hcc]
      by_cases h1 : c.toNat < 128
      · have hb : utf8EncodeChar c = [c.toNat] := by
          simp only [utf8EncodeChar]
          rw [if_pos h1]
        rw [hb, List.cons_append, List.nil_append, utf8DecodeAux_one f c.toNat h1 (utf8Encode cs),
          ih f hrec, Char.ofNat_toNat]
      · by_cases h2 : c.toNat < 2048
        · have hb : utf8EncodeChar c = [192 + c.toNat / 64, 128 + c.toNat % 64] := by
            simp only [utf8EncodeChar]
            rw [if_neg h1, if_pos h2]
          rw [hb, List.cons_append, List.cons_append, List.nil_append,
            utf8DecodeAux_two f c.toNat (by omega) h2 (utf8Encode cs), ih f hrec,
            Char.ofNat_toNat]
        · by_cases h3 : c.toNat < 65536
          · have hb : utf8EncodeChar c
                = [224 + c.toNat / 4096, 128 + c.toNat / 64 % 64, 128 + c.toNat % 64] := by
              simp only [utf8EncodeChar]
              rw [if_neg h1, if_neg h2, if_pos h3]
            rw [hb, List.cons_append, List.cons_append, List.cons_append, List.nil_append,
              utf8DecodeAux_three f c.toNat (by omega) h3 (by
                rcases hv with h | ⟨h4, h5⟩ <;> omega) (utf8Encode cs),
              ih f hrec, Char.ofNat_toNat]
          · have hb : utf8EncodeChar c = [240 + c.toNat / 262144, 128 + c.toNat / 4096 % 64,
                128 + c.toNat / 64 % 64, 128 + c.toNat % 64] := by
              simp only [utf8EncodeChar]
              rw [if_neg h1, if_neg h2, if_neg h3]
            rw [hb, List.cons_append, List.cons_append, List.cons_append, List.cons_append,
              List.nil_append,
              utf8DecodeAux_four f c.toNat (by omega) (by
                rcases hv with h | ⟨h4, h5⟩ <;> omega) (utf8Encode cs),
              ih f hrec, Char.ofNat_toNat]

/-- bytes.decode inverts str.encode: UTF-8 round-trips every string. -/
theorem utf8Decode_encode (s : List Char) : utf8Decode (utf8Encode s) = some s :=
  utf8DecodeAux_enc s ((utf8Encode s).length + 1) (Nat.lt_succ_self _)

theorem inflate_deflate : ∀ (fuel1 : Nat) (data extra : List Nat) (fuel2 : Nat),
    data.length < fuel1 → (deflateStored fuel1 data).length < fuel2 →
    inflateStored fuel2 (deflateStored fuel1 data ++ extra) = some (data, extra) := by
  intro fuel1
  induction fuel1 with
  | zero =>
    intro data extra fuel2 h1 h2
    exact absurd h1 (by omega)
  | succ f1 ih =>
    intro data extra fuel2 h1 h2
    by_cases hle : data.length ≤ 65535
    · have hdef : deflateStored (f1 + 1) data
          = 1 :: data.length % 256 :: data.length / 256 % 256
            :: (65535 - data.length) % 256 :: (65535 - data.length) / 256 % 256 :: data := by
        simp only [deflateStored]
        rw [if_pos hle]
        simp [le16]
      rw [hdef] at h2 ⊢
      match fuel2, h2 with
      | f2 + 1, h2 =>
        simp only [List.cons_append, inflateStored]
        rw [if_pos (by decide), if_pos (And.intro (by omega)
          (by simp only [List.length_append]; omega)), if_pos (by decide),
          show data.length % 256 + 256 * (data.length / 256 % 256) = data.length from by omega,
          List.take_left, List.drop_left]
    · have ht : (data.take 65535).length = 65535 := by
        rw [List.length_take]
        omega
      have hdef : deflateStored (f1 + 1) data
          = 0 :: 255 :: 255 :: 0 :: 0
            :: (data.take 65535 ++ deflateStored f1 (data.drop 65535)) := by
        simp only [deflateStored]
        rw [if_neg hle]
        simp [le16, List.cons_append, List.append_assoc]
      rw [hdef] at h2 ⊢
      match fuel2, h2 with
      | f2 + 1, h2 =>
        have hlen1 : (List.drop 65535 data).length < f1 := by
          rw [List.length_drop]
          omega
        have hlen2 : (deflateStored f1 (List.drop 65535 data)).length < f2 := by
          have h3 := h2
          simp only [List.length_cons, List.length_append] at h3
          omega
        simp only [List.cons_append, List.append_assoc, inflateStored]
        rw [if_pos (by decide), if_pos (And.intro (by trivial)
          (by simp only [List.length_append]; omega)), if_neg (by decide),
          List.drop_left' (by rw [ht]), List.take_left' (by rw [ht]),
          ih (data.drop 65535) extra f2 hlen1 hlen2]
        show some (List.take 65535 data ++ List.drop 65535 data, extra) = some (data, extra)
        rw [List.take_append_drop]

/-- zlib.decompress inverts zlib.compress. -/
theorem zlib_roundtrip (data : List Nat) : zlib_decompress (zlib_compress data) = some data := by
  simp only [zlib_compress, zlib_decompress]
  rw [if_pos (by decide),
    inflate_deflate (data.length + 1) data (be32 (adler32 data))
      ((deflateStored (data.length + 1) data ++ be32 (adler32 data)).length + 1)
      (by omega) (by simp only [List.length_append]; omega)]
  show (match be32 (adler32 data) with
    | a1 :: a2 :: a3 :: a4 :: _ =>
      if [a1, a2, a3, a4] = be32 (adler32 data) then some data else none
    | _ => none) = some data
  simp only [be32]
  rw [if_true]

theorem le16_lt (n : Nat) : ∀ b ∈ le16 n, b < 256 := by
  intro b hmem
  simp only [le16, List.mem_cons, List.not_mem_nil, or_false] at hmem
  rcases hmem with h | h <;> omega

theorem deflateStored_lt : ∀ (fuel : Nat) (data : List Nat), (∀ b ∈ data, b < 256) →
    ∀ b ∈ deflateStored fuel data, b < 256 := by
  intro fuel
  induction fuel with
  | zero =>
    intro data _ b hmem
    simp [deflateStored] at hmem
  | succ f ih =>
    intro data hdata b hmem
    simp only [deflateStored] at hmem
    split at hmem
    · simp only [List.mem_cons, List.mem_append, or_assoc] at hmem
      rcases hmem with h | h | h | h
      · omega
      · exact le16_lt data.length b h
      · exact le16_lt (65535 - data.length) b h
      · exact hdata b h
    · simp only [List.cons_append, List.mem_cons, List.mem_append, or_assoc] at hmem
      rcases hmem with h | h | h | h | h
      · omega
      · exact le16_lt 65535 b h
      · exact le16_lt 0 b h
      · exact hdata b (List.take_subset 65535 data h)
      · exact ih (data.drop 65535) (fun x hx => hdata x (List.drop_subset 65535 data hx)) b h

theorem be32_lt (n : Nat) : ∀ b ∈ be32 n, b < 256 := by
  intro b hmem
  simp only [be32, List.mem_cons, List.not_mem_nil, or_false] at hmem
  rcases hmem with h | h | h | h <;> omega

theorem zlib_compress_lt (data : List Nat) (hdata : ∀ b ∈ data, b < 256) :
    ∀ b ∈ zlib_compress data, b < 256 := by
  intro b hmem
  simp only [zlib_compress, List.mem_cons, List.mem_append] at hmem
  rcases hmem with h | h | h | h
  · omega
  · omega
  · exact deflateStored_lt (data.length + 1) data hdata b h
  · exact be32_lt (adler32 data) b h

theorem b64ValStd_enc (v : Nat) (hv : v < 64) : b64ValStd (b64CharStd v) = some v := by
  have h : ∀ x : Fin 64, b64ValStd (b64CharStd x.val) = some x.val := by decide
  exact h ⟨v, hv⟩

theorem b64CharStd_ne_eq (v : Nat) (hv : v < 64) : b64CharStd v ≠ '=' := by
  have h : ∀ x : Fin 64, b64CharStd x.val ≠ '=' := by decide
  exact h ⟨v, hv⟩

theorem urlTranslate_std (v : Nat) (hv : v < 64) : urlTranslate (b64CharStd v) = b64CharStd v := by
  have h : ∀ x : Fin 64, urlTranslate (b64CharStd x.val) = b64CharStd x.val := by decide
  exact h ⟨v, hv⟩

theorem urlTranslate_url (v : Nat) (hv : v < 64) : urlTranslate (b64CharUrl v) = b64CharStd v := by
  have h : ∀ x : Fin 64, urlTranslate (b64CharUrl x.val) = b64CharStd x.val := by decide
  exact h ⟨v, hv⟩

theorem b64DecodeGroups_enc : ∀ (bs : List Nat), (∀ b ∈ bs, b < 256) →
    b64DecodeGroups (b64EncodeWith b64CharStd bs) = some bs
  | [], _ => rfl
  | [b1], h => by
    have hb1 : b1 < 256 := h b1 (by simp)
    have e1 := b64ValStd_enc (b1 / 4) (by omega)
    have e2 := b64ValStd_enc (b1 % 4 * 16) (by omega)
    simp [b64EncodeWith, b64DecodeGroups, e1, e2]
    omega
  | [b1, b2], h => by
    have hb1 : b1 < 256 := h b1 (by simp)
    have hb2 : b2 < 256 := h b2 (by simp)
    have e1 := b64ValStd_enc (b1 / 4) (by omega)
    have e2 := b64ValStd_enc (b1 % 4 * 16 + b2 / 16) (by omega)
    have e3 := b64ValStd_enc (b2 % 16 * 4) (by omega)
    have n3 := b64CharStd_ne_eq (b2 % 16 * 4) (by omega)
    simp [b64EncodeWith, b64DecodeGroups, e1, e2, e3, n3]
    omega
  | b1 :: b2 :: b3 :: rest, h => by
    have hb1 : b1 < 256 := h b1 (by simp)
    have hb2 : b2 < 256 := h b2 (by simp)
    have hb3 : b3 < 256 := h b3 (by simp)
    have e1 := b64ValStd_enc (b1 / 4) (by omega)
    have e2 := b64ValStd_enc (b1 % 4 * 16 + b2 / 16) (by omega)
    have e3 := b64ValStd_enc (b2 % 16 * 4 + b3 / 64) (by omega)
    have e4 := b64ValStd_enc (b3 % 64) (by omega)
    have n3 := b64CharStd_ne_eq (b2 % 16 * 4 + b3 / 64) (by omega)
    have n4 := b64CharStd_ne_eq (b3 % 64) (by omega)
    have ihr := b64DecodeGroups_enc rest (fun x hx => h x (by simp [hx]))
    simp [b64EncodeWith, b64DecodeGroups, e1, e2, e3, e4, n3, n4, ihr]
    omega

theorem map_urlTranslate_std : ∀ (bs : List Nat), (∀ b ∈ bs, b < 256) →
    (b64EncodeWith b64CharStd bs).map urlTranslate = b64EncodeWith b64CharStd bs
  | [], _ => rfl
  | [b1], h => by
    have hb1 : b1 < 256 := h b1 (by simp)
    have heq : urlTranslate '=' = '=' := rfl
    simp [b64EncodeWith, urlTranslate_std (b1 / 4) (by omega),
      urlTranslate_std (b1 % 4 * 16) (by omega), heq]
  | [b1, b2], h => by
    have hb1 : b1 < 256 := h b1 (by simp)
    have hb2 : b2 < 256 := h b2 (by simp)
    have heq : urlTranslate '=' = '=' := rfl
    simp [b64EncodeWith, urlTranslate_std (b1 / 4) (by omega),
      urlTranslate_std (b1 % 4 * 16 + b2 / 16) (by omega),
      urlTranslate_std (b2 % 16 * 4) (by omega), heq]
  | b1 :: b2 :: b3 :: rest, h => by
    have hb1 : b1 < 256 := h b1 (by simp)
    have hb2 : b2 < 256 := h b2 (by simp)
    have hb3 : b3 < 256 := h b3 (by simp)
    have ihr := map_urlTranslate_std rest (fun x hx => h x (by simp [hx]))
    simp [b64EncodeWith, urlTranslate_std (b1 / 4) (by omega),
      urlTranslate_std (b1 % 4 * 16 + b2 / 16) (by omega),
      urlTranslate_std (b2 % 16 * 4 + b3 / 64) (by omega),
      urlTranslate_std (b3 % 64) (by omega), ihr]

theorem map_urlTranslate_url : ∀ (bs : List Nat), (∀ b ∈ bs, b < 256) →
    (b64EncodeWith b64CharUrl bs).map urlTranslate = b64EncodeWith b64CharStd bs
  | [], _ => rfl
  | [b1], h => by
    have hb1 : b1 < 256 := h b1 (by simp)
    have heq : urlTranslate '=' = '=' := rfl
    simp [b64EncodeWith, urlTranslate_url (b1 / 4) (by omega),
      urlTranslate_url (b1 % 4 * 16) (by omega), heq]
  | [b1, b2], h => by
    have hb1 : b1 < 256 := h b1 (by simp)
    have hb2 : b2 < 256 := h b2 (by simp)
    have heq : urlTranslate '=' = '=' := rfl
    simp [b64EncodeWith, urlTranslate_url (b1 / 4) (by omega),
      urlTranslate_url (b1 % 4 * 16 + b2 / 16) (by omega),
      urlTranslate_url (b2 % 16 * 4) (by omega), heq]
  | b1 :: b2 :: b3 :: rest, h => by
    have hb1 : b1 < 256 := h b1 (by simp)
    have hb2 : b2 < 256 := h b2 (by simp)
    have hb3 : b3 < 256 := h b3 (by simp)
    have ihr := map_urlTranslate_url rest (fun x hx => h x (by simp [hx]))
    simp [b64EncodeWith, urlTranslate_url (b1 / 4) (by omega),
      urlTranslate_url (b1 % 4 * 16 + b2 / 16) (by omega),
      urlTranslate_url (b2 % 16 * 4 + b3 / 64) (by omega),
      urlTranslate_url (b3 % 64) (by omega), ihr]

/-- urlsafe_b64decode inverts urlsafe_b64encode on byte input. -/
theorem urlsafe_decode_encode (bs : List Nat) (h : ∀ b ∈ bs, b < 256) :
    urlsafe_b64decode (urlsafe_b64encode bs) = some bs := by
  simp only [urlsafe_b64decode, urlsafe_b64encode, b64decode]
  rw [map_urlTranslate_url bs h, b64DecodeGroups_enc bs h]

/-- urlsafe_b64decode also decodes standard-alphabet tokens: the
translation step leaves the standard alphabet unchanged. -/
theorem urlsafe_decode_std (bs : List Nat) (h : ∀ b ∈ bs, b < 256) :
    urlsafe_b64decode (b64encodeStd bs) = some bs := by
  simp only [urlsafe_b64decode, b64encodeStd, b64decode]
  rw [map_urlTranslate_std bs h, b64DecodeGroups_enc bs h]

/-- base64.b64decode inverts the standard encoder on byte input. -/
theorem b64decode_std_enc (bs : List Nat) (h : ∀ b ∈ bs, b < 256) :
    b64decode (b64encodeStd bs) = some bs := b64DecodeGroups_enc bs h

theorem zlib_decompress_123 (bs : List Nat) : zlib_decompress (123 :: bs) = none := by
  match bs with
  | [] => rfl
  | b :: t =>
    simp only [zlib_decompress]
    rw [if_neg (fun hc => absurd hc.1 (by decide))]

theorem utf8Encode_dumps_obj (fields : List (List Nat × Json)) :
    ∃ t, utf8Encode (dumps (Json.obj fields)) = 123 :: t := by
  match fields with
  | [] => exact ⟨[125], rfl⟩
  | (k, v) :: kvs =>
    refine ⟨utf8Encode (strChars k ++ ':' :: ' ' :: (dumps v ++ dumpsObjRest kvs)), ?_⟩
    rw [show dumps (Json.obj ((k, v) :: kvs))
      = '\x7b' :: (strChars k ++ ':' :: ' ' :: (dumps v ++ dumpsObjRest kvs)) from rfl]
    rw [show utf8Encode ('\x7b' :: (strChars k ++ ':' :: ' ' :: (dumps v ++ dumpsObjRest kvs)))
      = utf8EncodeChar '\x7b'
        ++ utf8Encode (strChars k ++ ':' :: ' ' :: (dumps v ++ dumpsObjRest kvs)) from by
      simp [utf8Encode]]
    rfl

/-- C1: round-trip of the token codec.  For every JSON value that
json.dumps serializes (structured of null, bool, int, str, list, dict
with distinct keys) and that carries no adjacent surrogate pair,
decode_and_decompress inverts compress_and_encode. -/
theorem compress_decode_roundtrip (e : Json) (hs : serializable e = true)
    (hp : surrSafe e = true) :
    decode_and_decompress (compress_and_encode e) = some e := by
  have hz : ∀ b ∈ zlib_compress (utf8Encode (dumps e)), b < 256 :=
    zlib_compress_lt (utf8Encode (dumps e)) (utf8Encode_lt (dumps e))
  have h1 : compressedDecodePath (compress_and_encode e) = some e := by
    simp only [compressedDecodePath, compress_and_encode]
    rw [urlsafe_decode_encode (zlib_compress (utf8Encode (dumps e))) hz]
    show (match zlib_decompress (zlib_compress (utf8Encode (dumps e))) with
      | none => none
      | some decompressed =>
        (match utf8Decode decompressed with
         | none => none
         | some chars => json_loads chars)) = some e
    rw [zlib_roundtrip]
    show (match utf8Decode (utf8Encode (dumps e)) with
      | none => none
      | some chars => json_loads chars) = some e
    rw [utf8Decode_encode]
    show json_loads (dumps e) = some e
    exact json_loads_dumps e hs hp
  simp only [decode_and_decompress, h1]

/-- Witness: the round-trip of C1 at the concrete exam0. -/
theorem compress_decode_roundtrip_witness :
    serializable exam0 = true ∧ surrSafe exam0 = true
      ∧ decode_and_decompress (compress_and_encode exam0) = some exam0 :=
  ⟨rfl, rfl, compress_decode_roundtrip exam0 rfl rfl⟩

set_option maxRecDepth 10000 in
/-- Counterexample to C1 as stated: surrogateExam is JSON-serializable
(json.dumps writes its lone-surrogate pair), yet the codec returns the
distinct exam mergedExam, because json.loads reunites the adjacent
\uD800 \uDC00 escapes into the single code point U+10000. -/
theorem token_roundtrip_surrogate_cex :
    serializable surrogateExam = true
      ∧ decode_and_decompress (compress_and_encode surrogateExam) = some mergedExam
      ∧ (some mergedExam = some surrogateExam → False) :=
  ⟨rfl, rfl, fun hcon =>
    absurd (congrArg firstQuestionPoints (Option.some.inj hcon)) (by decide)⟩

theorem compressed_path_legacy_obj (fields : List (List Nat × Json)) :
    compressedDecodePath (legacy_encode (Json.obj fields)) = none := by
  simp only [compressedDecodePath, legacy_encode]
  rw [urlsafe_decode_std (utf8Encode (dumps (Json.obj fields)))
    (utf8Encode_lt (dumps (Json.obj fields)))]
  show (match zlib_decompress (utf8Encode (dumps (Json.obj fields))) with
    | none => none
    | some decompressed =>
      (match utf8Decode decompressed with
       | none => none
       | some chars => json_loads chars)) = none
  obtain ⟨t, ht⟩ := utf8Encode_dumps_obj fields
  rw [ht, zlib_decompress_123]

/-- C2: backward-compatible decode.  A legacy token, the standard
base64 of the UTF-8 JSON text of an exam object, is decoded back to
that object: the compressed path fails on it (the UTF-8 of a JSON
object starts with 0x7b, which fails the zlib header check) and the
plain-base64 fallback recovers the exam. -/
theorem legacy_decode_roundtrip (fields : List (List Nat × Json))
    (hs : serializable (Json.obj fields) = true) (hp : surrSafe (Json.obj fields) = true) :
    decode_and_decompress (legacy_encode (Json.obj fields)) = some (Json.obj fields) := by
  have h2 : legacyDecodePath (legacy_encode (Json.obj fields)) = some (Json.obj fields) := by
    simp only [legacyDecodePath, legacy_encode]
    rw [b64decode_std_enc (utf8Encode (dumps (Json.obj fields)))
      (utf8Encode_lt (dumps (Json.obj fields)))]
    show (match utf8Decode (utf8Encode (dumps (Json.obj fields))) with
      | none => none
      | some chars => json_loads chars) = some (Json.obj fields)
    rw [utf8Decode_encode]
    show json_loads (dumps (Json.obj fields)) = some (Json.obj fields)
    exact json_loads_dumps (Json.obj fields) hs hp
  simp only [decode_and_decompress, compressed_path_legacy_obj fields, h2]

/-- Witness: the legacy decode of C2 at the concrete exam0 object. -/
theorem legacy_decode_roundtrip_witness :
    serializable (Json.obj exam0Fields) = true ∧ surrSafe (Json.obj exam0Fields) = true
      ∧ decode_and_decompress (legacy_encode (Json.obj exam0Fields))
        = some (Json.obj exam0Fields) :=
  ⟨rfl, rfl, legacy_decode_roundtrip exam0Fields rfl rfl⟩

set_option maxRecDepth 10000 in
/-- Counterexample to C2 as stated: the legacy token of surrogateExam
decodes to the distinct exam mergedExam, not to surrogateExam, by the
same surrogate-pair merge of json.loads. -/
theorem legacy_decode_surrogate_cex :
    serializable surrogateExam = true
      ∧ decode_and_decompress (legacy_encode surrogateExam) = some mergedExam
      ∧ (some mergedExam = some surrogateExam → False) :=
  ⟨rfl, rfl, fun hcon =>
    absurd (congrArg firstQuestionPoints (Option.some.inj hcon)) (by decide)⟩

/-- C3 (amended): the decode contract.  decode_and_decompress never has
a third outcome beyond returning None or the value of one of its two
decode paths; but a successful value need not carry the exam keys, as
decode_success_without_exam_keys shows against the stated claim. -/
theorem decode_contract (s : String) :
    decode_and_decompress s = none
      ∨ decode_and_decompress s = compressedDecodePath s
      ∨ decode_and_decompress s = legacyDecodePath s := by
  simp only [decode_and_decompress]
  cases h1 : compressedDecodePath s with
  | some j =>
    right
    left
    rfl
  | none =>
    cases h2 : legacyDecodePath s with
    | some j =>
      right
      right
      rfl
    | none =>
      left
      rfl

set_option maxRecDepth 10000 in
/-- Counterexample to C3 as stated: the token "NDI=" (base64 of "42")
decodes successfully to the JSON number 42, which carries none of the
expected exam keys; student_view would render it as a dict and raise. -/
theorem decode_success_without_exam_keys :
    decode_and_decompress (String.mk ['N', 'D', 'I', '=']) = some (Json.num 42)
      ∧ hasExamKeys (Json.num 42) = false :=
  ⟨rfl, rfl⟩

theorem b64CharUrl_safe (v : Nat) : urlSafeChar (b64CharUrl v) = true := by
  simp only [b64CharUrl]
  split_ifs with h1 h2 h3 h4
  · rw [urlSafeChar, toNat_ofNat_valid (65 + v) (Or.inl (by omega))]
    simp only [Bool.or_eq_true, Bool.and_eq_true, decide_eq_true_eq]
    omega
  · rw [urlSafeChar, toNat_ofNat_valid (97 + (v - 26)) (Or.inl (by omega))]
    simp only [Bool.or_eq_true, Bool.and_eq_true, decide_eq_true_eq]
    omega
  · rw [urlSafeChar, toNat_ofNat_valid (48 + (v - 52)) (Or.inl (by omega))]
    simp only [Bool.or_eq_true, Bool.and_eq_true, decide_eq_true_eq]
    omega
  · decide
  · decide

theorem b64EncodeUrl_all : ∀ bs : List Nat, (b64EncodeWith b64CharUrl bs).all urlSafeChar = true
  | [] => rfl
  | [b1] => by
    have he : urlSafeChar '=' = true := by decide
    simp [b64EncodeWith, b64CharUrl_safe, he]
  | [b1, b2] => by
    have he : urlSafeChar '=' = true := by decide
    simp [b64EncodeWith, b64CharUrl_safe, he]
  | b1 :: b2 :: b3 :: rest => by
    simp [b64EncodeWith, b64CharUrl_safe, b64EncodeUrl_all rest]

/-- C7: URL-safety of the token.  Every character of the string
compress_and_encode returns lies in the URL-safe base64 alphabet
A-Z, a-z, 0-9, '-', '_' or is the '=' padding. -/
theorem token_urlsafe (e : Json) :
    (compress_and_encode e).data.all urlSafeChar = true :=
  b64EncodeUrl_all (zlib_compress (utf8Encode (dumps e)))

end ExamApp
